import Mathlib

/-!
# protoc-gen-protorpc: the generator-dispatch plugin

A shallow embedding of `protoc-gen-protorpc/plugin.go`: the per-file generation
driver (`mainPlugin.Generate`), the output namer (`goFileName`,
`goPackageOption`), the backend registry (`RegisterCodeGenerator`,
`getCodeGenerator` and the listing functions) and the Go standard-library routines
the namer calls
(`strings.LastIndex`, `strings.IndexByte`, `path.Ext`, `path.Split`,
`path.Join`, `path.Clean`).

Conventions of the embedding:
* a Go `string` is a list of bytes, each byte written as a `Char`;
* a run-time panic (nil dereference, slice index out of range) is `none`;
* Go `int` indices are `Int`, so that the `-1` of a failed search is visible;
* the backend hooks and `format.Source` are arbitrary functions; the hooks
  receive the generator they are handed in the source;
* the `log.Printf` diagnostic goes to standard error and is not part of the state.
-/

namespace Protorpc

/-- A Go string, as its sequence of bytes. -/
abbrev Str := List Char

/-- Go `s[lo:]`; `none` is the panic for an index out of range. -/
def sliceFrom (s : Str) (lo : Int) : Option Str :=
  if 0 ≤ lo ∧ lo ≤ (s.length : Int) then some (s.drop lo.toNat) else none

/-- Go `s[:hi]`; `none` is the panic for an index out of range. -/
def sliceTo (s : Str) (hi : Int) : Option Str :=
  if 0 ≤ hi ∧ hi ≤ (s.length : Int) then some (s.take hi.toNat) else none

/-! ## Go standard library: package `strings` -/

/-- Loop of `bytealg.LastIndexByteString`: `for i := len(s) - 1; i >= 0; i--`,
with the argument being `i + 1`. -/
def strings.LastIndexByteString.loop (s : Str) (c : Char) : Nat → Int
  | 0 => -1
  | i + 1 => if s[i]? = some c then (i : Int) else strings.LastIndexByteString.loop s c i

/-- The function `bytealg.LastIndexByteString(s, c)`: index of the last `c` in `s`, or `-1`. -/
def strings.LastIndexByteString (s : Str) (c : Char) : Int :=
  strings.LastIndexByteString.loop s c s.length

/-- The call `strings.LastIndex(s, substr)` for a one-byte `substr`, which the library
answers with `bytealg.LastIndexByteString(s, substr[0])`. -/
def strings.LastIndex (s : Str) (c : Char) : Int :=
  strings.LastIndexByteString s c

/-- Loop of `strings.IndexByte`: scan forward, `i` is the index of the head. -/
def strings.IndexByte.loop (c : Char) : Str → Nat → Int
  | [], _ => -1
  | x :: xs, i => if x = c then (i : Int) else strings.IndexByte.loop c xs (i + 1)

/-- The function `strings.IndexByte(s, c)`: index of the first `c` in `s`, or `-1`. -/
def strings.IndexByte (s : Str) (c : Char) : Int :=
  strings.IndexByte.loop c s 0

/-! ## Go standard library: package `path` -/

/-- Loop of `path.Ext`: `for i := len(path) - 1; i >= 0 && path[i] != '/'; i--`,
with the argument being `i + 1`. -/
def path.Ext.loop (p : Str) : Nat → Str
  | 0 => []
  | i + 1 =>
    if p[i]? = some '/' then []
    else if p[i]? = some '.' then p.drop i
    else path.Ext.loop p i

/-- The function `path.Ext(path)`: the suffix beginning at the final dot of the final
slash-separated element, or the empty string when that element has no dot. -/
def path.Ext (p : Str) : Str :=
  path.Ext.loop p p.length

/-- The function `path.Split(path)`: `i := LastIndexByteString(path, '/')`, then
`path[:i+1], path[i+1:]`. -/
def path.Split (p : Str) : Str × Str :=
  let i := strings.LastIndexByteString p '/'
  (p.take (i + 1).toNat, p.drop (i + 1).toNat)

/-- Inner loop of the `..` case of `path.Clean`, after `out.w--`:
`for out.w > dotdot && out.index(out.w) != '/' { out.w-- }`. The argument and the
result are the write index `w`. -/
def path.Clean.backtrack (out : Str) (dotdot : Nat) : Nat → Nat
  | 0 => 0
  | w + 1 =>
    if dotdot < w + 1 ∧ out[w + 1]? ≠ some '/' then path.Clean.backtrack out dotdot w
    else w + 1

/-- Copy loop of `path.Clean`: `for ; r < n && path[r] != '/'; r++ { out.append(path[r]) }`.
Returns the new read index and buffer. -/
def path.Clean.copy (p : Str) : Nat → Nat → Str → Nat × Str
  | 0, r, out => (r, out)
  | fuel + 1, r, out =>
    match p[r]? with
    | none => (r, out)
    | some c => if c = '/' then (r, out) else path.Clean.copy p fuel (r + 1) (out ++ [c])

/-- Loop state of `path.Clean`: read index `r`, the bytes written so far (`out.w` is
their number) and the index `dotdot` below which `..` must not backtrack. -/
structure path.Clean.State where
  r : Nat
  out : Str
  dotdot : Nat
  deriving DecidableEq

/-- One iteration of the main loop of `path.Clean` (the `switch` on `path[r]`). -/
def path.Clean.step (p : Str) (rooted : Bool) (st : path.Clean.State) : path.Clean.State :=
  let n := p.length
  let r := st.r
  if p[r]? = some '/' then
    { st with r := r + 1 }
  else if p[r]? = some '.' ∧ (r + 1 = n ∨ p[r + 1]? = some '/') then
    { st with r := r + 1 }
  else if p[r]? = some '.' ∧ p[r + 1]? = some '.' ∧ (r + 2 = n ∨ p[r + 2]? = some '/') then
    if st.dotdot < st.out.length then
      let w := path.Clean.backtrack st.out st.dotdot (st.out.length - 1)
      { r := r + 2, out := st.out.take w, dotdot := st.dotdot }
    else if !rooted then
      let out1 := if 0 < st.out.length then st.out ++ ['/'] else st.out
      let out2 := out1 ++ ['.', '.']
      { r := r + 2, out := out2, dotdot := out2.length }
    else
      { st with r := r + 2 }
  else
    let out1 :=
      if (rooted ∧ st.out.length ≠ 1) ∨ (!rooted ∧ st.out.length ≠ 0) then st.out ++ ['/']
      else st.out
    let (r1, out2) := path.Clean.copy p (n - r) r out1
    { r := r1, out := out2, dotdot := st.dotdot }

/-- Main loop of `path.Clean`: `for r < n { ... }`, with a bound on the iterations. -/
def path.Clean.loop (p : Str) (rooted : Bool) : Nat → path.Clean.State → path.Clean.State
  | 0, st => st
  | fuel + 1, st =>
    if st.r < p.length then path.Clean.loop p rooted fuel (path.Clean.step p rooted st)
    else st

/-- The function `path.Clean(path)`: the shortest equivalent path name. Every iteration
of the main loop advances `r`, so `len(path)` iterations are enough. -/
def path.Clean (p : Str) : Str :=
  if p = [] then ['.']
  else
    let rooted : Bool := p[0]? = some '/'
    let st0 : path.Clean.State :=
      if rooted then { r := 1, out := ['/'], dotdot := 1 } else { r := 0, out := [], dotdot := 0 }
    let st := path.Clean.loop p rooted p.length st0
    if st.out.length = 0 then ['.'] else st.out

/-- Body of the second loop of `path.Join`: append `e` to `buf`, with a slash in
between when `buf` is not empty. -/
def path.Join.add (buf : Str) (e : Str) : Str :=
  if 0 < buf.length ∨ e ≠ [] then
    (if 0 < buf.length then buf ++ ['/'] else buf) ++ e
  else buf

/-- The function `path.Join(elem...)`: the non-empty elements joined by slashes and
cleaned; the empty string when every element is empty. -/
def path.Join (elem : List Str) : Str :=
  let size := (elem.map List.length).sum
  if size = 0 then []
  else path.Clean (elem.foldl path.Join.add [])

/-! ## Data model -/

/-- The part of `descriptor.FileOptions` the plugin reads: the `go_package` option,
a string pointer that may be nil. -/
structure FileOptions where
  GoPackage : Option Str
  deriving DecidableEq

/-- Getter `(*FileOptions).GetGoPackage`: the empty string for a nil receiver or a nil
field. -/
def GetGoPackage (o : Option FileOptions) : Str :=
  match o with
  | none => []
  | some opts => opts.GoPackage.getD []

/-- The part of `generator.FileDescriptor` the plugin reads. `Name` and `Options` are
pointers and may be nil; `Msg` and `Svc` stand for `descriptor.DescriptorProto` and
`descriptor.ServiceDescriptorProto`. -/
structure FileDescriptor (Msg Svc : Type) where
  Name : Option Str
  MessageType : List Msg
  Service : List Svc
  Options : Option FileOptions

/-- Getter `file.GetName()`: the empty string when `Name` is nil. -/
def FileDescriptor.GetName {Msg Svc : Type} (file : FileDescriptor Msg Svc) : Str :=
  file.Name.getD []

/-- Getter `file.GetOptions()`. -/
def FileDescriptor.GetOptions {Msg Svc : Type} (file : FileDescriptor Msg Svc) :
    Option FileOptions :=
  file.Options

/-- The message `plugin.CodeGeneratorResponse_File`; its fields are string pointers. -/
structure CodeGeneratorResponse_File where
  Name : Option Str
  InsertionPoint : Option Str
  Content : Option Str
  deriving DecidableEq

/-- The part of `plugin.CodeGeneratorRequest` the plugin reads. -/
structure CodeGeneratorRequest where
  FileToGenerate : List Str
  deriving DecidableEq

/-- The part of `plugin.CodeGeneratorResponse` the plugin writes. -/
structure CodeGeneratorResponse where
  File : List CodeGeneratorResponse_File
  deriving DecidableEq

/-- The part of `generator.Generator` the plugin uses: the request and the response. -/
structure Generator where
  Request : CodeGeneratorRequest
  Response : CodeGeneratorResponse
  deriving DecidableEq

/-- The interface `CodeGenerator`: a backend. The three hooks receive the generator
and the file, as in the source. -/
structure CodeGenerator (Msg Svc : Type) where
  Name : Str
  FileNameExt : Str
  HeaderCode : Generator → FileDescriptor Msg Svc → Str
  ServiceCode : Generator → FileDescriptor Msg Svc → Svc → Str
  MessageCode : Generator → FileDescriptor Msg Svc → Msg → Str

/-- The struct `mainPlugin` after `Init` and `InitService`: the generator and the
active backend. -/
structure mainPlugin (Msg Svc : Type) where
  Generator : Generator
  CodeGenerator : CodeGenerator Msg Svc

section Plugin

variable {Msg Svc Err : Type}

/-! ## Output namer -/

/-- The method `mainPlugin.goPackageOption`: `(impPath, pkg, ok)`. -/
def goPackageOption (file : FileDescriptor Msg Svc) : Option (Str × Str × Bool) :=
  let pkg := GetGoPackage file.GetOptions
  if pkg = [] then some ([], pkg, false)
  else
    let slash := strings.LastIndex pkg '/'
    if slash < 0 then some ([], pkg, true)
    else
      match sliceFrom pkg (slash + 1) with
      | none => none
      | some pkg1 =>
        let impPath := pkg
        let sc := strings.IndexByte impPath ';'
        if sc < 0 then some (impPath, pkg1, true)
        else
          match sliceTo impPath sc, sliceFrom impPath (sc + 1) with
          | some impPath2, some pkg2 => some (impPath2, pkg2, true)
          | _, _ => none

/-- The extension `.proto`. -/
def dotProto : Str := ['.', 'p', 'r', 'o', 't', 'o']

/-- The extension `.protodevel`. -/
def dotProtodevel : Str := ['.', 'p', 'r', 'o', 't', 'o', 'd', 'e', 'v', 'e', 'l']

/-- First half of `mainPlugin.goFileName` (lines 86-90): the name with its `.proto` or
`.protodevel` extension cut off, followed by the backend's extension. -/
def goFileName.derived (p : mainPlugin Msg Svc) (file : FileDescriptor Msg Svc) :
    Option Str :=
  match file.Name with
  | none => none
  | some name =>
    let ext := path.Ext name
    let stripped :=
      if ext = dotProto ∨ ext = dotProtodevel then
        sliceTo name ((name.length : Int) - (ext.length : Int))
      else some name
    match stripped with
    | none => none
    | some name1 => some (name1 ++ p.CodeGenerator.FileNameExt)

/-- The method `mainPlugin.goFileName`. -/
def goFileName (p : mainPlugin Msg Svc) (file : FileDescriptor Msg Svc) : Option Str :=
  match goFileName.derived p file with
  | none => none
  | some name =>
    match goPackageOption file with
    | none => none
    | some (impPath, _, ok) =>
      if ok = true ∧ impPath ≠ [] then
        let name2 := (path.Split name).2
        some (path.Join [impPath, name2])
      else some name

/-! ## Generation driver -/

/-- Loop of `mainPlugin.isFileNeedGenerate` over `Request.FileToGenerate`. -/
def isFileNeedGenerate.loop (name : Str) : List Str → Bool
  | [] => false
  | v :: vs => if v = name then true else isFileNeedGenerate.loop name vs

/-- The method `mainPlugin.isFileNeedGenerate`. -/
def isFileNeedGenerate (p : mainPlugin Msg Svc) (file : FileDescriptor Msg Svc) : Bool :=
  isFileNeedGenerate.loop file.GetName p.Generator.Request.FileToGenerate

/-- The call `fmt.Fprintln(&buf, s)` for one string operand: `s` and a line break are
written after the buffer's content. -/
def Fprintln (buf : Str) (s : Str) : Str :=
  buf ++ s ++ ['\n']

/-- Lines 52-61 of `mainPlugin.Generate`: the buffer after the header, the message
loop and the service loop. -/
def Generate.buffer (p : mainPlugin Msg Svc) (file : FileDescriptor Msg Svc) : Str :=
  let buf : Str := []
  let buf := Fprintln buf (p.CodeGenerator.HeaderCode p.Generator file)
  let buf := file.MessageType.foldl
    (fun b msg => Fprintln b (p.CodeGenerator.MessageCode p.Generator file msg)) buf
  let buf := file.Service.foldl
    (fun b svc => Fprintln b (p.CodeGenerator.ServiceCode p.Generator file svc)) buf
  buf

/-- Lines 63-68 of `mainPlugin.Generate`: the formatter's result, or the buffer itself
when the formatter fails. `Source` is `format.Source`. -/
def Generate.fileContent (Source : Str → Except Err Str) (buf : Str) : Str :=
  match Source buf with
  | Except.error _ => buf
  | Except.ok code => code

/-- The method `mainPlugin.Generate`; the result is the plugin after the call, `none`
when the call panics. `Source` is `format.Source`. -/
def Generate (Source : Str → Except Err Str) (p : mainPlugin Msg Svc)
    (file : FileDescriptor Msg Svc) : Option (mainPlugin Msg Svc) :=
  if !isFileNeedGenerate p file then some p
  else
    let buf := Generate.buffer p file
    let fileContent := Generate.fileContent Source buf
    match goFileName p file with
    | none => none
    | some name =>
      some { p with
        Generator := { p.Generator with
          Response := { p.Generator.Response with
            File := p.Generator.Response.File ++
              [{ Name := some name, InsertionPoint := none, Content := some fileContent }] } } }

/-- The driver's loop over the files: `Generate` is called on each file in turn, and a
panic ends the run. -/
def GenerateAll (Source : Str → Except Err Str) :
    mainPlugin Msg Svc → List (FileDescriptor Msg Svc) → Option (mainPlugin Msg Svc)
  | p, [] => some p
  | p, file :: files =>
    match Generate Source p file with
    | none => none
    | some p1 => GenerateAll Source p1 files

end Plugin

/-! ## Backend registry

The package variable `pkgCodeGeneratorList` is passed explicitly: every operation takes
the list as it stands, and `RegisterCodeGenerator` returns the new list. A registered
backend is a value that implements the interface. -/

section Registry

variable {Msg Svc : Type}

/-- The function `RegisterCodeGenerator`: `append(pkgCodeGeneratorList, g)`. -/
def RegisterCodeGenerator (pkgCodeGeneratorList : List (CodeGenerator Msg Svc))
    (g : CodeGenerator Msg Svc) : List (CodeGenerator Msg Svc) :=
  pkgCodeGeneratorList ++ [g]

/-- The function `getAllCodeGenerator`. -/
def getAllCodeGenerator (pkgCodeGeneratorList : List (CodeGenerator Msg Svc)) :
    List (CodeGenerator Msg Svc) :=
  pkgCodeGeneratorList

/-- The function `getAllServiceGeneratorNames`: the loop appends `g.Name()` to `names`,
which starts empty. -/
def getAllServiceGeneratorNames (pkgCodeGeneratorList : List (CodeGenerator Msg Svc)) :
    List Str :=
  pkgCodeGeneratorList.foldl (fun names g => names ++ [g.Name]) []

/-- The function `getFirstServiceGeneratorName`: the name of element 0 when the list is
not empty, the empty string otherwise. -/
def getFirstServiceGeneratorName (pkgCodeGeneratorList : List (CodeGenerator Msg Svc)) :
    Str :=
  if 0 < pkgCodeGeneratorList.length then
    match pkgCodeGeneratorList[0]? with
    | some g => g.Name
    | none => []
  else []

/-- Loop of `getCodeGenerator`: the first backend whose name is `name`; `none` is the
nil the function returns after the loop. -/
def getCodeGenerator.loop (name : Str) :
    List (CodeGenerator Msg Svc) → Option (CodeGenerator Msg Svc)
  | [] => none
  | g :: gs => if g.Name = name then some g else getCodeGenerator.loop name gs

/-- The function `getCodeGenerator`. -/
def getCodeGenerator (pkgCodeGeneratorList : List (CodeGenerator Msg Svc)) (name : Str) :
    Option (CodeGenerator Msg Svc) :=
  getCodeGenerator.loop name pkgCodeGeneratorList

/-- The registry after `RegisterCodeGenerator` has been called with each backend of `gs`
in order, starting from the empty registry. -/
def registerAll (gs : List (CodeGenerator Msg Svc)) : List (CodeGenerator Msg Svc) :=
  gs.foldl RegisterCodeGenerator []

end Registry

/-! ## Reference definitions for the statements -/

/-- The name with a trailing `.proto` or `.protodevel` removed, and unchanged when it
ends with neither: the stripping step of the output namer as its contract words it. -/
def stripProtoSuffix (name : Str) : Str :=
  if dotProto <:+ name then name.take (name.length - dotProto.length)
  else if dotProtodevel <:+ name then name.take (name.length - dotProtodevel.length)
  else name

section Reference

variable {Msg Svc Err : Type}

/-- The plugin with `outs` added at the end of the response's file list and nothing
else changed. -/
def mainPlugin.appendFiles (p : mainPlugin Msg Svc) (outs : List CodeGeneratorResponse_File) :
    mainPlugin Msg Svc :=
  { Generator :=
      { Request := p.Generator.Request
        Response := { File := p.Generator.Response.File ++ outs } }
    CodeGenerator := p.CodeGenerator }

/-- The output for `file` when the plugin is in state `p`: the derived name paired with
the formatted buffer, or with the buffer itself when the formatter fails. -/
def Generate.output (Source : Str → Except Err Str) (p : mainPlugin Msg Svc)
    (file : FileDescriptor Msg Svc) : Option CodeGeneratorResponse_File :=
  match goFileName p file with
  | none => none
  | some name =>
    some { Name := some name, InsertionPoint := none,
           Content := some (Generate.fileContent Source (Generate.buffer p file)) }

/-- The files of a run that are in the request's to-generate list, in iteration order. -/
def eligibleFiles (p : mainPlugin Msg Svc) (files : List (FileDescriptor Msg Svc)) :
    List (FileDescriptor Msg Svc) :=
  files.filter (fun f => decide (f.GetName ∈ p.Generator.Request.FileToGenerate))

end Reference

/-- The same file with no `go_package` option: the options pointer is nil. -/
def withoutGoPackage {Msg Svc : Type} (file : FileDescriptor Msg Svc) :
    FileDescriptor Msg Svc :=
  { file with Options := none }

/-! ## Concrete inputs -/

/-- A backend with extension `.gen.go` whose message and service hooks return the
descriptor they are given. -/
def exampleBackend : CodeGenerator Str Str :=
  { Name := "std".toList
    FileNameExt := ".gen.go".toList
    HeaderCode := fun _ _ => "package x".toList
    ServiceCode := fun _ _ svc => svc
    MessageCode := fun _ _ msg => msg }

/-- A backend whose hooks all return the empty string. -/
def silentBackend : CodeGenerator Str Str :=
  { Name := "silent".toList
    FileNameExt := ".go".toList
    HeaderCode := fun _ _ => []
    ServiceCode := fun _ _ _ => []
    MessageCode := fun _ _ _ => [] }

/-- A plugin asked to generate `a/b/c.proto` (listed twice) and `d.proto`, with one
output already in the response. -/
def examplePlugin (backend : CodeGenerator Str Str) : mainPlugin Str Str :=
  { Generator :=
      { Request :=
          { FileToGenerate := ["a/b/c.proto".toList, "a/b/c.proto".toList, "d.proto".toList] }
        Response :=
          { File := [{ Name := some "old.go".toList, InsertionPoint := none,
                       Content := some "x".toList }] } }
    CodeGenerator := backend }

/-- The file `name` with two messages and one service and the given `go_package`. -/
def exampleFile (name : String) (goPackage : Option String) : FileDescriptor Str Str :=
  { Name := some name.toList
    MessageType := ["M1".toList, "M2".toList]
    Service := ["S".toList]
    Options := some { GoPackage := goPackage.map String.toList } }

/-- A formatter that rejects every buffer. -/
def failingSource : Str → Except Unit Str :=
  fun _ => Except.error ()

/-- A formatter that accepts every buffer and puts a tab in front of it. -/
def tabSource : Str → Except Unit Str :=
  fun buf => Except.ok ('\t' :: buf)

/-- Three files in iteration order: a listed one, one supplied only as a dependency,
and another listed one. -/
def exampleRun : List (FileDescriptor Str Str) :=
  [exampleFile "a/b/c.proto" none, exampleFile "x/other.proto" none,
    exampleFile "d.proto" (some "pkg/v2")]

/-- A second backend named `std`, with another extension. -/
def shadowedBackend : CodeGenerator Str Str :=
  { Name := "std".toList
    FileNameExt := ".shadow.go".toList
    HeaderCode := fun _ _ => []
    ServiceCode := fun _ _ _ => []
    MessageCode := fun _ _ _ => [] }

/-! ## Lemmas on the string routines -/

theorem exists_last_split (c : Char) (s : Str) (h : c ∈ s) :
    ∃ a b, s = a ++ c :: b ∧ c ∉ b := by
  induction s with
  | nil => cases h
  | cons x xs ih =>
    by_cases hx : c ∈ xs
    · obtain ⟨a, b, hab, hb⟩ := ih hx
      exact ⟨x :: a, b, by rw [hab]; rfl, hb⟩
    · have hc : c = x := by
        rcases List.mem_cons.mp h with h1 | h1
        · exact h1
        · exact absurd h1 hx
      exact ⟨[], xs, by rw [hc]; rfl, hx⟩

theorem exists_first_split (c : Char) (s : Str) (h : c ∈ s) :
    ∃ a b, s = a ++ c :: b ∧ c ∉ a := by
  induction s with
  | nil => cases h
  | cons x xs ih =>
    by_cases hx : x = c
    · exact ⟨[], xs, by rw [hx]; rfl, by simp⟩
    · have hc : c ∈ xs := by
        rcases List.mem_cons.mp h with h1 | h1
        · exact absurd h1.symm hx
        · exact h1
      obtain ⟨a, b, hab, ha⟩ := ih hc
      refine ⟨x :: a, b, by rw [hab]; rfl, ?_⟩
      intro hm
      rcases List.mem_cons.mp hm with h1 | h1
      · exact hx h1.symm
      · exact ha h1

theorem getElem?_ne_of_not_mem (c : Char) (s : Str) (h : c ∉ s) (i : Nat) :
    s[i]? ≠ some c := by
  intro hi
  exact h (List.getElem?_mem hi)

theorem LastIndexByteString_loop_not_mem (s : Str) (c : Char) (h : c ∉ s) (i : Nat) :
    strings.LastIndexByteString.loop s c i = -1 := by
  induction i with
  | zero => rfl
  | succ i ih =>
    rw [strings.LastIndexByteString.loop, if_neg (getElem?_ne_of_not_mem c s h i)]
    exact ih

theorem LastIndexByteString_loop_append (a b : Str) (c : Char) (h : c ∉ b) (k : Nat) :
    strings.LastIndexByteString.loop (a ++ c :: b) c (a.length + 1 + k) = (a.length : Int) := by
  induction k with
  | zero =>
    rw [Nat.add_zero, strings.LastIndexByteString.loop, if_pos]
    rw [List.getElem?_append_right (Nat.le_refl _), Nat.sub_self, List.getElem?_cons_zero]
  | succ k ih =>
    rw [← Nat.add_assoc, strings.LastIndexByteString.loop, if_neg]
    · exact ih
    · have h1 : (a ++ c :: b)[a.length + 1 + k]? = b[k]? := by
        rw [List.getElem?_append_right (by omega)]
        have : a.length + 1 + k - a.length = k + 1 := by omega
        rw [this, List.getElem?_cons_succ]
      rw [h1]
      exact getElem?_ne_of_not_mem c b h k

theorem LastIndexByteString_not_mem (s : Str) (c : Char) (h : c ∉ s) :
    strings.LastIndexByteString s c = -1 :=
  LastIndexByteString_loop_not_mem s c h s.length

theorem LastIndexByteString_append (a b : Str) (c : Char) (h : c ∉ b) :
    strings.LastIndexByteString (a ++ c :: b) c = (a.length : Int) := by
  have h1 : (a ++ c :: b).length = a.length + 1 + b.length := by
    simp only [List.length_append, List.length_cons]
    omega
  rw [strings.LastIndexByteString, h1]
  exact LastIndexByteString_loop_append a b c h b.length

theorem IndexByte_loop_not_mem (c : Char) (s : Str) (h : c ∉ s) (i : Nat) :
    strings.IndexByte.loop c s i = -1 := by
  induction s generalizing i with
  | nil => rfl
  | cons x xs ih =>
    have hx : ¬ x = c := fun e => h (by rw [e]; exact List.mem_cons_self _ _)
    rw [strings.IndexByte.loop, if_neg hx]
    exact ih (fun hm => h (List.mem_cons_of_mem _ hm)) (i + 1)

theorem IndexByte_loop_append (c : Char) (a b : Str) (h : c ∉ a) (i : Nat) :
    strings.IndexByte.loop c (a ++ c :: b) i = ((i + a.length : Nat) : Int) := by
  induction a generalizing i with
  | nil => simp [strings.IndexByte.loop]
  | cons x xs ih =>
    have hx : ¬ x = c := fun e => h (by rw [e]; exact List.mem_cons_self _ _)
    rw [List.cons_append, strings.IndexByte.loop, if_neg hx,
      ih (fun hm => h (List.mem_cons_of_mem _ hm)) (i + 1)]
    simp only [List.length_cons]
    congr 1
    omega

theorem IndexByte_not_mem (c : Char) (s : Str) (h : c ∉ s) :
    strings.IndexByte s c = -1 :=
  IndexByte_loop_not_mem c s h 0

theorem IndexByte_append (c : Char) (a b : Str) (h : c ∉ a) :
    strings.IndexByte (a ++ c :: b) c = (a.length : Int) := by
  rw [strings.IndexByte, IndexByte_loop_append c a b h 0, Nat.zero_add]

theorem Ext_loop_append (a rest : Str) (h1 : '.' ∉ rest) (h2 : '/' ∉ rest) (k : Nat) :
    path.Ext.loop (a ++ '.' :: rest) (a.length + 1 + k) = '.' :: rest := by
  induction k with
  | zero =>
    have h : (a ++ '.' :: rest)[a.length]? = some '.' := by
      rw [List.getElem?_append_right (Nat.le_refl _), Nat.sub_self, List.getElem?_cons_zero]
    rw [Nat.add_zero, path.Ext.loop, h, if_neg (by decide), if_pos rfl,
      List.drop_left]
  | succ k ih =>
    have h : (a ++ '.' :: rest)[a.length + 1 + k]? = rest[k]? := by
      rw [List.getElem?_append_right (by omega)]
      have : a.length + 1 + k - a.length = k + 1 := by omega
      rw [this, List.getElem?_cons_succ]
    rw [← Nat.add_assoc, path.Ext.loop, h, if_neg (getElem?_ne_of_not_mem _ rest h2 k),
      if_neg (getElem?_ne_of_not_mem _ rest h1 k)]
    exact ih

theorem Ext_append (a rest : Str) (h1 : '.' ∉ rest) (h2 : '/' ∉ rest) :
    path.Ext (a ++ '.' :: rest) = '.' :: rest := by
  have h : (a ++ '.' :: rest).length = a.length + 1 + rest.length := by
    simp only [List.length_append, List.length_cons]
    omega
  rw [path.Ext, h]
  exact Ext_loop_append a rest h1 h2 rest.length

theorem Ext_loop_suffix (p : Str) (i : Nat) (hi : i ≤ p.length) :
    path.Ext.loop p i = [] ∨ ∃ j, j < p.length ∧ path.Ext.loop p i = p.drop j := by
  induction i with
  | zero => exact Or.inl rfl
  | succ i ih =>
    rw [path.Ext.loop]
    split
    · exact Or.inl rfl
    · split
      · exact Or.inr ⟨i, hi, rfl⟩
      · exact ih (Nat.le_of_succ_le hi)

theorem Ext_suffix (p : Str) : path.Ext p <:+ p := by
  rcases Ext_loop_suffix p p.length (Nat.le_refl _) with h | ⟨j, _, h⟩
  · rw [path.Ext, h]
    exact List.nil_suffix
  · rw [path.Ext, h]
    exact List.drop_suffix j p

theorem Ext_length_le (p : Str) : (path.Ext p).length ≤ p.length :=
  (Ext_suffix p).length_le

theorem take_append_Ext (p : Str) :
    p.take (p.length - (path.Ext p).length) ++ path.Ext p = p := by
  obtain ⟨t, ht⟩ := Ext_suffix p
  have hl : p.length = t.length + (path.Ext p).length := by
    rw [← List.length_append, ht]
  have h1 : p.length - (path.Ext p).length = t.length := by omega
  rw [h1]
  nth_rewrite 1 [← ht]
  rw [List.take_left, ht]

theorem Ext_eq_dotProto_iff (name : Str) : path.Ext name = dotProto ↔ dotProto <:+ name := by
  constructor
  · intro h
    rw [← h]
    exact Ext_suffix name
  · rintro ⟨a, rfl⟩
    exact Ext_append a ['p', 'r', 'o', 't', 'o'] (by decide) (by decide)

theorem Ext_eq_dotProtodevel_iff (name : Str) :
    path.Ext name = dotProtodevel ↔ dotProtodevel <:+ name := by
  constructor
  · intro h
    rw [← h]
    exact Ext_suffix name
  · rintro ⟨a, rfl⟩
    exact Ext_append a ['p', 'r', 'o', 't', 'o', 'd', 'e', 'v', 'e', 'l'] (by decide) (by decide)

theorem sliceFrom_append (a b : Str) (c : Char) :
    sliceFrom (a ++ c :: b) ((a.length : Int) + 1) = some b := by
  have hl : (a ++ c :: b).length = a.length + 1 + b.length := by
    simp only [List.length_append, List.length_cons]
    omega
  have h1 : (0 : Int) ≤ (a.length : Int) + 1 ∧
      (a.length : Int) + 1 ≤ ((a ++ c :: b).length : Int) := by
    rw [hl]
    constructor <;> omega
  have h2 : ((a.length : Int) + 1).toNat = a.length + 1 := by omega
  have h3 : (a ++ c :: b).drop (a.length + 1) = b := by
    have : a ++ c :: b = (a ++ [c]) ++ b := by simp
    rw [this]
    exact List.drop_left' (by simp)
  rw [sliceFrom, if_pos h1, h2, h3]

theorem sliceTo_append (a b : Str) : sliceTo (a ++ b) (a.length : Int) = some a := by
  have h1 : (0 : Int) ≤ (a.length : Int) ∧ (a.length : Int) ≤ ((a ++ b).length : Int) := by
    rw [List.length_append]
    constructor <;> omega
  rw [sliceTo, if_pos h1, Int.toNat_ofNat, List.take_left]

/-! ## `path.Clean`: the iteration bounds are never what ends a loop -/

theorem Clean_copy_ge (p : Str) (fuel r : Nat) (out : Str) :
    r ≤ (path.Clean.copy p fuel r out).1 := by
  induction fuel generalizing r out with
  | zero => exact Nat.le_refl _
  | succ fuel ih =>
    rw [path.Clean.copy]
    split
    · exact Nat.le_refl _
    · split
      · exact Nat.le_refl _
      · exact Nat.le_of_succ_le (ih (r + 1) _)

theorem Clean_copy_done (p : Str) (fuel r : Nat) (out : Str) (h : p.length ≤ r + fuel) :
    p[(path.Clean.copy p fuel r out).1]? = none ∨
      p[(path.Clean.copy p fuel r out).1]? = some '/' := by
  induction fuel generalizing r out with
  | zero =>
    rw [path.Clean.copy]
    exact Or.inl (List.getElem?_eq_none (by omega))
  | succ fuel ih =>
    rw [path.Clean.copy]
    split
    · rename_i hnone
      exact Or.inl hnone
    · rename_i c hc
      split
      · rename_i hslash
        rw [hslash] at hc
        exact Or.inr hc
      · exact ih (r + 1) _ (by omega)

theorem Clean_step_lt (p : Str) (rooted : Bool) (st : path.Clean.State)
    (h : st.r < p.length) : st.r < (path.Clean.step p rooted st).r := by
  rw [path.Clean.step]
  simp only []
  split
  · exact Nat.lt_succ_self _
  · split
    · exact Nat.lt_succ_self _
    · split
      · split
        · simp only
          omega
        · split
          · simp only
            omega
          · simp only
            omega
      · rename_i hslash _ _
        obtain ⟨m, hm⟩ : ∃ m, p.length - st.r = m + 1 := ⟨p.length - st.r - 1, by omega⟩
        obtain ⟨c, hc⟩ : ∃ c, p[st.r]? = some c := ⟨p[st.r], List.getElem?_eq_getElem h⟩
        have hne : ¬ c = '/' := fun e => hslash (by rw [hc, e])
        simp only [hm, path.Clean.copy, hc, if_neg hne]
        exact Nat.lt_of_succ_le (Clean_copy_ge p m (st.r + 1) _)

theorem Clean_loop_done (p : Str) (rooted : Bool) (fuel : Nat) (st : path.Clean.State)
    (h : p.length ≤ st.r + fuel) :
    p.length ≤ (path.Clean.loop p rooted fuel st).r := by
  induction fuel generalizing st with
  | zero =>
    rw [path.Clean.loop]
    exact h
  | succ fuel ih =>
    rw [path.Clean.loop]
    split
    · rename_i hlt
      have := Clean_step_lt p rooted st hlt
      exact ih _ (by omega)
    · omega

/-! ## Lemmas on `goPackageOption` -/

section NamerLemmas

variable {Msg Svc : Type}

theorem goPackageOption_empty (file : FileDescriptor Msg Svc)
    (hs : GetGoPackage file.GetOptions = []) :
    goPackageOption file = some ([], [], false) := by
  simp only [goPackageOption, hs, if_true]

theorem goPackageOption_no_slash (file : FileDescriptor Msg Svc) (s : Str)
    (hs : GetGoPackage file.GetOptions = s) (hne : s ≠ []) (h : '/' ∉ s) :
    goPackageOption file = some ([], s, true) := by
  have h1 : strings.LastIndex s '/' < 0 := by
    rw [strings.LastIndex, LastIndexByteString_not_mem s '/' h]
    decide
  simp only [goPackageOption, hs, if_neg hne, if_pos h1]

theorem goPackageOption_path (file : FileDescriptor Msg Svc) (a b : Str)
    (hs : GetGoPackage file.GetOptions = a ++ '/' :: b) (hb : '/' ∉ b)
    (hsc : ';' ∉ a ++ '/' :: b) :
    goPackageOption file = some (a ++ '/' :: b, b, true) := by
  have hne : a ++ '/' :: b ≠ [] := by simp
  have h1 : strings.LastIndex (a ++ '/' :: b) '/' = (a.length : Int) :=
    LastIndexByteString_append a b '/' hb
  have h2 : ¬ ((a.length : Int) < 0) := by omega
  have h3 : strings.IndexByte (a ++ '/' :: b) ';' < 0 := by
    rw [IndexByte_not_mem ';' _ hsc]
    decide
  simp only [goPackageOption, hs, if_neg hne, h1, if_neg h2, sliceFrom_append, if_pos h3]

theorem goPackageOption_semicolon (file : FileDescriptor Msg Svc) (a b : Str)
    (hs : GetGoPackage file.GetOptions = a ++ ';' :: b) (ha : ';' ∉ a)
    (hsl : '/' ∈ a ++ ';' :: b) :
    goPackageOption file = some (a, b, true) := by
  have hne : a ++ ';' :: b ≠ [] := by simp
  obtain ⟨u, v, huv, hv⟩ := exists_last_split '/' _ hsl
  have h1 : strings.LastIndex (a ++ ';' :: b) '/' = (u.length : Int) := by
    rw [huv]
    exact LastIndexByteString_append u v '/' hv
  have h2 : ¬ ((u.length : Int) < 0) := by omega
  have h3 : sliceFrom (a ++ ';' :: b) ((u.length : Int) + 1) = some v := by
    rw [huv]
    exact sliceFrom_append u v '/'
  have h4 : strings.IndexByte (a ++ ';' :: b) ';' = (a.length : Int) :=
    IndexByte_append ';' a b ha
  have h5 : ¬ ((a.length : Int) < 0) := by omega
  have h6 : sliceTo (a ++ ';' :: b) (a.length : Int) = some a := sliceTo_append a _
  simp only [goPackageOption, hs, if_neg hne, h1, if_neg h2, h3, h4, if_neg h5, h6,
    sliceFrom_append]

/-- The four shapes of a `go_package` string and the result for each: the option
parser returns on every input. -/
theorem goPackageOption_cases (file : FileDescriptor Msg Svc) :
    (GetGoPackage file.GetOptions = [] ∧ goPackageOption file = some ([], [], false)) ∨
    ('/' ∉ GetGoPackage file.GetOptions ∧
      goPackageOption file = some ([], GetGoPackage file.GetOptions, true)) ∨
    (∃ a b, GetGoPackage file.GetOptions = a ++ '/' :: b ∧ '/' ∉ b ∧
      ';' ∉ a ++ '/' :: b ∧ goPackageOption file = some (a ++ '/' :: b, b, true)) ∨
    (∃ a b, GetGoPackage file.GetOptions = a ++ ';' :: b ∧ ';' ∉ a ∧
      '/' ∈ a ++ ';' :: b ∧ goPackageOption file = some (a, b, true)) := by
  by_cases he : GetGoPackage file.GetOptions = []
  · exact Or.inl ⟨he, goPackageOption_empty file he⟩
  · by_cases hsl : '/' ∈ GetGoPackage file.GetOptions
    · by_cases hsc : ';' ∈ GetGoPackage file.GetOptions
      · obtain ⟨a, b, hab, ha⟩ := exists_first_split ';' _ hsc
        exact Or.inr (Or.inr (Or.inr ⟨a, b, hab, ha, hab ▸ hsl,
          goPackageOption_semicolon file a b hab ha (hab ▸ hsl)⟩))
      · obtain ⟨a, b, hab, hb⟩ := exists_last_split '/' _ hsl
        exact Or.inr (Or.inr (Or.inl ⟨a, b, hab, hb, hab ▸ hsc,
          goPackageOption_path file a b hab hb (hab ▸ hsc)⟩))
    · exact Or.inr (Or.inl ⟨hsl, goPackageOption_no_slash file _ rfl he hsl⟩)

theorem goPackageOption_isSome (file : FileDescriptor Msg Svc) :
    ∃ impPath pkg ok, goPackageOption file = some (impPath, pkg, ok) := by
  rcases goPackageOption_cases file with ⟨_, h⟩ | ⟨_, h⟩ | ⟨a, b, _, _, _, h⟩ | ⟨a, b, _, _, _, h⟩
  · exact ⟨_, _, _, h⟩
  · exact ⟨_, _, _, h⟩
  · exact ⟨_, _, _, h⟩
  · exact ⟨_, _, _, h⟩

theorem goPackageOption_ok_of_impPath (file : FileDescriptor Msg Svc) (impPath pkg : Str)
    (ok : Bool) (h : goPackageOption file = some (impPath, pkg, ok)) (hi : impPath ≠ []) :
    ok = true := by
  rcases goPackageOption_cases file with ⟨_, h1⟩ | ⟨_, h1⟩ | ⟨a, b, _, _, _, h1⟩ |
    ⟨a, b, _, _, _, h1⟩
  all_goals
    rw [h1] at h
    simp only [Option.some.injEq, Prod.mk.injEq] at h
    obtain ⟨h2, _, h3⟩ := h
    first
      | exact h3.symm
      | exact absurd h2.symm hi

theorem sliceTo_sub (s : Str) (k : Nat) (hk : k ≤ s.length) :
    sliceTo s ((s.length : Int) - (k : Int)) = some (s.take (s.length - k)) := by
  have h1 : (0 : Int) ≤ (s.length : Int) - (k : Int) ∧
      (s.length : Int) - (k : Int) ≤ (s.length : Int) := by
    constructor <;> omega
  have h2 : ((s.length : Int) - (k : Int)).toNat = s.length - k := by omega
  rw [sliceTo, if_pos h1, h2]

theorem not_dotProto_suffix_of_dotProtodevel (name : Str) (h : dotProtodevel <:+ name) :
    ¬ dotProto <:+ name := by
  intro h1
  have e1 := (Ext_eq_dotProto_iff name).mpr h1
  have e2 := (Ext_eq_dotProtodevel_iff name).mpr h
  rw [e1] at e2
  exact absurd e2 (by decide)

theorem goFileName_derived_eq (p : mainPlugin Msg Svc) (file : FileDescriptor Msg Svc)
    (name : Str) (hn : file.Name = some name) :
    goFileName.derived p file =
      some (stripProtoSuffix name ++ p.CodeGenerator.FileNameExt) := by
  by_cases h1 : dotProto <:+ name
  · have e := (Ext_eq_dotProto_iff name).mpr h1
    have hl : dotProto.length ≤ name.length := h1.length_le
    simp only [goFileName.derived, hn, e, true_or, if_true, sliceTo_sub name _ hl,
      stripProtoSuffix, if_pos h1]
  · by_cases h2 : dotProtodevel <:+ name
    · have e := (Ext_eq_dotProtodevel_iff name).mpr h2
      have hl : dotProtodevel.length ≤ name.length := h2.length_le
      simp only [goFileName.derived, hn, e, or_true, if_true, sliceTo_sub name _ hl,
        stripProtoSuffix, if_neg h1, if_pos h2]
    · have e1 : ¬ path.Ext name = dotProto := fun e => h1 ((Ext_eq_dotProto_iff name).mp e)
      have e2 : ¬ path.Ext name = dotProtodevel :=
        fun e => h2 ((Ext_eq_dotProtodevel_iff name).mp e)
      simp only [goFileName.derived, hn, e1, e2, or_self, if_false, stripProtoSuffix,
        if_neg h1, if_neg h2]

theorem Split_spec (s : Str) :
    ∃ dir b, s = dir ++ b ∧ '/' ∉ b ∧ (dir = [] ∨ dir.getLast? = some '/') ∧
      path.Split s = (dir, b) := by
  by_cases h : '/' ∈ s
  · obtain ⟨a, b, hab, hb⟩ := exists_last_split '/' s h
    refine ⟨a ++ ['/'], b, by rw [hab]; simp, hb, Or.inr (by simp), ?_⟩
    have h1 : strings.LastIndexByteString s '/' = (a.length : Int) := by
      rw [hab]
      exact LastIndexByteString_append a b '/' hb
    have h2 : ((a.length : Int) + 1).toNat = (a ++ ['/']).length := by
      rw [List.length_append, List.length_singleton]
      omega
    have h3 : s = (a ++ ['/']) ++ b := by rw [hab]; simp
    rw [path.Split]
    simp only [h1, h2]
    rw [h3, List.take_left, List.drop_left]
  · refine ⟨[], s, rfl, h, Or.inl rfl, ?_⟩
    have h1 : strings.LastIndexByteString s '/' = -1 := LastIndexByteString_not_mem s '/' h
    rw [path.Split]
    simp only [h1]
    rfl

theorem goFileName_of_no_impPath (p : mainPlugin Msg Svc) (file : FileDescriptor Msg Svc)
    (name pkg : Str) (ok : Bool) (hn : file.Name = some name)
    (ho : goPackageOption file = some ([], pkg, ok)) :
    goFileName p file = some (stripProtoSuffix name ++ p.CodeGenerator.FileNameExt) := by
  simp only [goFileName, goFileName_derived_eq p file name hn, ho, ne_eq, not_true_eq_false,
    and_false, if_false]

theorem goFileName_of_impPath (p : mainPlugin Msg Svc) (file : FileDescriptor Msg Svc)
    (name impPath pkg : Str) (ok : Bool) (hn : file.Name = some name)
    (ho : goPackageOption file = some (impPath, pkg, ok)) (hi : impPath ≠ []) :
    goFileName p file = some (path.Join [impPath,
      (path.Split (stripProtoSuffix name ++ p.CodeGenerator.FileNameExt)).2]) := by
  have hok := goPackageOption_ok_of_impPath file impPath pkg ok ho hi
  subst hok
  simp only [goFileName, goFileName_derived_eq p file name hn, ho, ne_eq, hi,
    not_false_eq_true, and_self, if_true]

theorem goFileName_isSome (p : mainPlugin Msg Svc) (file : FileDescriptor Msg Svc)
    (name : Str) (hn : file.Name = some name) : ∃ out, goFileName p file = some out := by
  obtain ⟨impPath, pkg, ok, ho⟩ := goPackageOption_isSome file
  by_cases hi : impPath = []
  · subst hi
    exact ⟨_, goFileName_of_no_impPath p file name pkg ok hn ho⟩
  · exact ⟨_, goFileName_of_impPath p file name impPath pkg ok hn ho hi⟩

theorem goFileName_congr (p q : mainPlugin Msg Svc) (file : FileDescriptor Msg Svc)
    (h : p.CodeGenerator = q.CodeGenerator) : goFileName p file = goFileName q file := by
  simp only [goFileName, goFileName.derived, h]

end NamerLemmas

/-! ## Lemmas on the generation driver -/

section DriverLemmas

variable {Msg Svc Err : Type}

theorem isFileNeedGenerate_loop_iff (name : Str) (l : List Str) :
    isFileNeedGenerate.loop name l = true ↔ name ∈ l := by
  induction l with
  | nil => simp [isFileNeedGenerate.loop]
  | cons v vs ih =>
    rw [isFileNeedGenerate.loop]
    by_cases hv : v = name
    · simp [hv]
    · rw [if_neg hv, ih]
      constructor
      · exact fun h => List.mem_cons_of_mem _ h
      · intro h
        rcases List.mem_cons.mp h with h1 | h1
        · exact absurd h1.symm hv
        · exact h1

theorem isFileNeedGenerate_iff (p : mainPlugin Msg Svc) (file : FileDescriptor Msg Svc) :
    isFileNeedGenerate p file = true ↔
      file.GetName ∈ p.Generator.Request.FileToGenerate :=
  isFileNeedGenerate_loop_iff _ _

theorem foldl_Fprintln {α : Type} (f : α → Str) (l : List α) (buf : Str) :
    l.foldl (fun b x => Fprintln b (f x)) buf =
      buf ++ (l.map (fun x => f x ++ ['\n'])).flatten := by
  induction l generalizing buf with
  | nil => simp
  | cons x xs ih =>
    rw [List.foldl_cons, ih, Fprintln, List.map_cons, List.flatten_cons]
    simp only [List.append_assoc]

theorem Generate_buffer_eq (p : mainPlugin Msg Svc) (file : FileDescriptor Msg Svc) :
    Generate.buffer p file =
      p.CodeGenerator.HeaderCode p.Generator file ++ ['\n'] ++
      (file.MessageType.map
        (fun m => p.CodeGenerator.MessageCode p.Generator file m ++ ['\n'])).flatten ++
      (file.Service.map
        (fun v => p.CodeGenerator.ServiceCode p.Generator file v ++ ['\n'])).flatten := by
  rw [Generate.buffer]
  rw [foldl_Fprintln (fun v => p.CodeGenerator.ServiceCode p.Generator file v),
    foldl_Fprintln (fun m => p.CodeGenerator.MessageCode p.Generator file m)]
  simp only [Fprintln, List.nil_append]

theorem Generate_buffer_ne_nil (p : mainPlugin Msg Svc) (file : FileDescriptor Msg Svc) :
    Generate.buffer p file ≠ [] := by
  rw [Generate_buffer_eq]
  simp

theorem Generate_skip (Source : Str → Except Err Str) (p : mainPlugin Msg Svc)
    (file : FileDescriptor Msg Svc)
    (h : file.GetName ∉ p.Generator.Request.FileToGenerate) :
    Generate Source p file = some p := by
  have h1 : isFileNeedGenerate p file = false := by
    rw [← Bool.not_eq_true, isFileNeedGenerate_iff]
    exact h
  simp only [Generate, h1, Bool.not_false, if_true]

theorem Generate_eligible (Source : Str → Except Err Str) (p : mainPlugin Msg Svc)
    (file : FileDescriptor Msg Svc)
    (h : file.GetName ∈ p.Generator.Request.FileToGenerate) (out : Str)
    (ho : goFileName p file = some out) :
    Generate Source p file = some (p.appendFiles
      [{ Name := some out, InsertionPoint := none,
         Content := some (Generate.fileContent Source (Generate.buffer p file)) }]) := by
  have h1 : isFileNeedGenerate p file = true := (isFileNeedGenerate_iff p file).mpr h
  simp only [Generate, h1, Bool.not_true, ho, mainPlugin.appendFiles]
  rfl

theorem GetName_of_Name (file : FileDescriptor Msg Svc) (name : Str)
    (hn : file.Name = some name) : file.GetName = name := by
  rw [FileDescriptor.GetName, hn]
  rfl

theorem appendFiles_nil (p : mainPlugin Msg Svc) : p.appendFiles [] = p := by
  simp only [mainPlugin.appendFiles, List.append_nil]

theorem appendFiles_appendFiles (p : mainPlugin Msg Svc)
    (xs ys : List CodeGeneratorResponse_File) :
    (p.appendFiles xs).appendFiles ys = p.appendFiles (xs ++ ys) := by
  simp only [mainPlugin.appendFiles, List.append_assoc]

theorem Generate_output_eq (Source : Str → Except Err Str) (p : mainPlugin Msg Svc)
    (file : FileDescriptor Msg Svc) (out : Str) (ho : goFileName p file = some out) :
    Generate.output Source p file =
      some { Name := some out, InsertionPoint := none,
             Content := some (Generate.fileContent Source (Generate.buffer p file)) } := by
  simp only [Generate.output, ho]

theorem eligibleFiles_cons_pos (p : mainPlugin Msg Svc) (f : FileDescriptor Msg Svc)
    (fs : List (FileDescriptor Msg Svc))
    (h : f.GetName ∈ p.Generator.Request.FileToGenerate) :
    eligibleFiles p (f :: fs) = f :: eligibleFiles p fs := by
  rw [eligibleFiles, List.filter_cons_of_pos (by simpa using h)]
  rfl

theorem eligibleFiles_cons_neg (p : mainPlugin Msg Svc) (f : FileDescriptor Msg Svc)
    (fs : List (FileDescriptor Msg Svc))
    (h : f.GetName ∉ p.Generator.Request.FileToGenerate) :
    eligibleFiles p (f :: fs) = eligibleFiles p fs := by
  rw [eligibleFiles, List.filter_cons_of_neg (by simpa using h)]
  rfl

theorem GenerateAll_spec (Source : Str → Except Err Str)
    (files : List (FileDescriptor Msg Svc)) :
    ∀ p : mainPlugin Msg Svc,
      (∀ f ∈ files, f.GetName ∈ p.Generator.Request.FileToGenerate → f.Name ≠ none) →
      ∃ outs, GenerateAll Source p files = some (p.appendFiles outs) ∧
        outs.map (fun o => o.Name) = (eligibleFiles p files).map (fun f => goFileName p f) ∧
        ∀ i f, (eligibleFiles p files)[i]? = some f →
          ∃ o, outs[i]? = some o ∧
            Generate.output Source (p.appendFiles (outs.take i)) f = some o := by
  induction files with
  | nil =>
    intro p _
    refine ⟨[], ?_, rfl, ?_⟩
    · rw [appendFiles_nil]
      rfl
    · intro i f hf
      simp [eligibleFiles] at hf
  | cons f fs ih =>
    intro p hnames
    have hrest : ∀ g ∈ fs, g.GetName ∈ p.Generator.Request.FileToGenerate → g.Name ≠ none :=
      fun g hg => hnames g (List.mem_cons_of_mem _ hg)
    by_cases he : f.GetName ∈ p.Generator.Request.FileToGenerate
    · have hsome : f.Name ≠ none := hnames f (List.mem_cons_self _ _) he
      obtain ⟨name, hn⟩ := Option.ne_none_iff_exists.mp hsome
      have hn := hn.symm
      obtain ⟨out, ho⟩ := goFileName_isSome p f name hn
      have hg := Generate_eligible Source p f he out ho
      obtain ⟨outs, h1, h2, h3⟩ := ih (p.appendFiles
        [{ Name := some out, InsertionPoint := none,
           Content := some (Generate.fileContent Source (Generate.buffer p f)) }]) hrest
      refine ⟨CodeGeneratorResponse_File.mk (some out) none
          (some (Generate.fileContent Source (Generate.buffer p f))) :: outs, ?_, ?_, ?_⟩
      · rw [GenerateAll, hg]
        simp only []
        rw [h1, appendFiles_appendFiles]
        rfl
      · rw [eligibleFiles_cons_pos p f fs he, List.map_cons, List.map_cons, ho, h2]
        rfl
      · intro i g hig
        rw [eligibleFiles_cons_pos p f fs he] at hig
        cases i with
        | zero =>
          rw [List.getElem?_cons_zero] at hig
          cases hig
          refine ⟨_, List.getElem?_cons_zero, ?_⟩
          rw [List.take_zero, appendFiles_nil]
          exact Generate_output_eq Source p f out ho
        | succ i =>
          rw [List.getElem?_cons_succ] at hig
          obtain ⟨o, ho1, ho2⟩ := h3 i g hig
          refine ⟨o, by rw [List.getElem?_cons_succ]; exact ho1, ?_⟩
          rw [appendFiles_appendFiles] at ho2
          exact ho2
    · obtain ⟨outs, h1, h2, h3⟩ := ih p hrest
      refine ⟨outs, ?_, ?_, ?_⟩
      · rw [GenerateAll, Generate_skip Source p f he]
        exact h1
      · rw [eligibleFiles_cons_neg p f fs he]
        exact h2
      · intro i g hig
        rw [eligibleFiles_cons_neg p f fs he] at hig
        exact h3 i g hig

end DriverLemmas

/-! ## The generation driver: claims -/

section DriverClaims

variable {Msg Svc Err : Type}

/-- C1. Skip invariant: for every plugin state, every formatter and every file whose
name (as `GetName` reads it) differs from every entry of `Request.FileToGenerate`,
`Generate` returns with the plugin exactly as it was; in particular `Response.File`
is the list it was before the call. -/
theorem C1_Generate_skips_unlisted_file (Source : Str → Except Err Str)
    (p : mainPlugin Msg Svc) (file : FileDescriptor Msg Svc)
    (h : ∀ v ∈ p.Generator.Request.FileToGenerate, v ≠ file.GetName) :
    Generate Source p file = some p ∧
      (Generate Source p file).map (fun q => q.Generator.Response.File) =
        some p.Generator.Response.File := by
  have hskip : Generate Source p file = some p :=
    Generate_skip Source p file (fun hm => h _ hm rfl)
  exact ⟨hskip, by rw [hskip]; rfl⟩

theorem C1_Generate_skips_unlisted_file_witness :
    (∀ v ∈ (examplePlugin exampleBackend).Generator.Request.FileToGenerate,
        v ≠ (exampleFile "x/other.proto" none).GetName) ∧
      (Generate tabSource (examplePlugin exampleBackend) (exampleFile "x/other.proto" none) =
          some (examplePlugin exampleBackend) ∧
        (Generate tabSource (examplePlugin exampleBackend)
            (exampleFile "x/other.proto" none)).map (fun q => q.Generator.Response.File) =
          some (examplePlugin exampleBackend).Generator.Response.File) :=
  ⟨by decide, C1_Generate_skips_unlisted_file tabSource (examplePlugin exampleBackend)
    (exampleFile "x/other.proto" none) (by decide)⟩

/-- C2. For every file that has a name occurring in `Request.FileToGenerate` (once or
several times), one call of `Generate` returns with exactly one entry added to
`Response.File`: the new list is the old list followed by one (Name, Content) pair,
nothing else in the plugin changes, and the pair's Name is `goFileName` of the file
for the active backend. -/
theorem C2_Generate_appends_one_entry (Source : Str → Except Err Str)
    (p : mainPlugin Msg Svc) (file : FileDescriptor Msg Svc) (name : Str)
    (hn : file.Name = some name) (hm : name ∈ p.Generator.Request.FileToGenerate) :
    ∃ out content,
      goFileName p file = some out ∧
      Generate Source p file = some (p.appendFiles
        [{ Name := some out, InsertionPoint := none, Content := some content }]) ∧
      (p.appendFiles
        [{ Name := some out, InsertionPoint := none,
           Content := some content }]).Generator.Response.File =
        p.Generator.Response.File ++
          [{ Name := some out, InsertionPoint := none, Content := some content }] := by
  obtain ⟨out, ho⟩ := goFileName_isSome p file name hn
  have he : file.GetName ∈ p.Generator.Request.FileToGenerate := by
    rw [GetName_of_Name file name hn]
    exact hm
  exact ⟨out, _, ho, Generate_eligible Source p file he out ho, rfl⟩

theorem C2_Generate_appends_one_entry_witness :
    (exampleFile "a/b/c.proto" none).Name = some "a/b/c.proto".toList ∧
      "a/b/c.proto".toList ∈ (examplePlugin exampleBackend).Generator.Request.FileToGenerate ∧
      ∃ out content,
        goFileName (examplePlugin exampleBackend) (exampleFile "a/b/c.proto" none) = some out ∧
        Generate tabSource (examplePlugin exampleBackend) (exampleFile "a/b/c.proto" none) =
          some ((examplePlugin exampleBackend).appendFiles
            [{ Name := some out, InsertionPoint := none, Content := some content }]) ∧
        ((examplePlugin exampleBackend).appendFiles
          [{ Name := some out, InsertionPoint := none,
             Content := some content }]).Generator.Response.File =
          (examplePlugin exampleBackend).Generator.Response.File ++
            [{ Name := some out, InsertionPoint := none, Content := some content }] :=
  ⟨rfl, by decide, C2_Generate_appends_one_entry tabSource (examplePlugin exampleBackend)
    (exampleFile "a/b/c.proto" none) "a/b/c.proto".toList rfl (by decide)⟩

/-- C3. For every file that has a name in the to-generate list, the buffer `Generate`
assembles is the header fragment and a line break, then every message fragment in
declaration order, each followed by a line break, then every service fragment in
declaration order, each followed by a line break; and when the formatter succeeds on
that buffer, the Content of the entry `Generate` appends is the formatter's result. -/
theorem C3_Generate_buffer_and_formatted_content (Source : Str → Except Err Str)
    (p : mainPlugin Msg Svc) (file : FileDescriptor Msg Svc) (name code : Str)
    (hn : file.Name = some name) (hm : name ∈ p.Generator.Request.FileToGenerate)
    (hc : Source (Generate.buffer p file) = Except.ok code) :
    Generate.buffer p file =
        p.CodeGenerator.HeaderCode p.Generator file ++ ['\n'] ++
        (file.MessageType.map
          (fun m => p.CodeGenerator.MessageCode p.Generator file m ++ ['\n'])).flatten ++
        (file.Service.map
          (fun v => p.CodeGenerator.ServiceCode p.Generator file v ++ ['\n'])).flatten ∧
      ∃ out, goFileName p file = some out ∧
        Generate Source p file = some (p.appendFiles
          [{ Name := some out, InsertionPoint := none, Content := some code }]) := by
  refine ⟨Generate_buffer_eq p file, ?_⟩
  obtain ⟨out, ho⟩ := goFileName_isSome p file name hn
  have he : file.GetName ∈ p.Generator.Request.FileToGenerate := by
    rw [GetName_of_Name file name hn]
    exact hm
  refine ⟨out, ho, ?_⟩
  have hg := Generate_eligible Source p file he out ho
  rw [Generate.fileContent, hc] at hg
  exact hg

theorem C3_Generate_buffer_and_formatted_content_witness :
    (exampleFile "a/b/c.proto" none).Name = some "a/b/c.proto".toList ∧
      "a/b/c.proto".toList ∈ (examplePlugin exampleBackend).Generator.Request.FileToGenerate ∧
      tabSource (Generate.buffer (examplePlugin exampleBackend)
          (exampleFile "a/b/c.proto" none)) =
        Except.ok "\tpackage x\nM1\nM2\nS\n".toList ∧
      (Generate.buffer (examplePlugin exampleBackend) (exampleFile "a/b/c.proto" none) =
          "package x".toList ++ ['\n'] ++
          (["M1".toList, "M2".toList].map (fun m => m ++ ['\n'])).flatten ++
          (["S".toList].map (fun v => v ++ ['\n'])).flatten ∧
        ∃ out, goFileName (examplePlugin exampleBackend) (exampleFile "a/b/c.proto" none) =
            some out ∧
          Generate tabSource (examplePlugin exampleBackend) (exampleFile "a/b/c.proto" none) =
            some ((examplePlugin exampleBackend).appendFiles
              [{ Name := some out, InsertionPoint := none,
                 Content := some "\tpackage x\nM1\nM2\nS\n".toList }])) :=
  ⟨rfl, by decide, rfl, C3_Generate_buffer_and_formatted_content tabSource
    (examplePlugin exampleBackend) (exampleFile "a/b/c.proto" none) "a/b/c.proto".toList
    "\tpackage x\nM1\nM2\nS\n".toList rfl (by decide) rfl⟩

/-- C4. Formatting-failure resilience: for every file that has a name in the
to-generate list and for which the formatter returns an error on the assembled buffer,
`Generate` still returns with exactly one entry added, the entry's Content is the
unformatted buffer itself, and that buffer is not empty, whatever the backend's hooks
return. -/
theorem C4_Generate_keeps_unformatted_buffer (Source : Str → Except Err Str)
    (p : mainPlugin Msg Svc) (file : FileDescriptor Msg Svc) (name : Str) (e : Err)
    (hn : file.Name = some name) (hm : name ∈ p.Generator.Request.FileToGenerate)
    (he : Source (Generate.buffer p file) = Except.error e) :
    (∃ out, goFileName p file = some out ∧
      Generate Source p file = some (p.appendFiles
        [{ Name := some out, InsertionPoint := none,
           Content := some (Generate.buffer p file) }])) ∧
      Generate.buffer p file ≠ [] := by
  refine ⟨?_, Generate_buffer_ne_nil p file⟩
  obtain ⟨out, ho⟩ := goFileName_isSome p file name hn
  have hel : file.GetName ∈ p.Generator.Request.FileToGenerate := by
    rw [GetName_of_Name file name hn]
    exact hm
  refine ⟨out, ho, ?_⟩
  have hg := Generate_eligible Source p file hel out ho
  rw [Generate.fileContent, he] at hg
  exact hg

theorem C4_Generate_keeps_unformatted_buffer_witness :
    (exampleFile "d.proto" none).Name = some "d.proto".toList ∧
      "d.proto".toList ∈ (examplePlugin silentBackend).Generator.Request.FileToGenerate ∧
      failingSource (Generate.buffer (examplePlugin silentBackend)
          (exampleFile "d.proto" none)) = Except.error () ∧
      ((∃ out, goFileName (examplePlugin silentBackend) (exampleFile "d.proto" none) =
            some out ∧
          Generate failingSource (examplePlugin silentBackend) (exampleFile "d.proto" none) =
            some ((examplePlugin silentBackend).appendFiles
              [{ Name := some out, InsertionPoint := none,
                 Content := some (Generate.buffer (examplePlugin silentBackend)
                   (exampleFile "d.proto" none)) }])) ∧
        Generate.buffer (examplePlugin silentBackend) (exampleFile "d.proto" none) ≠ []) :=
  ⟨rfl, by decide, rfl, C4_Generate_keeps_unformatted_buffer failingSource
    (examplePlugin silentBackend) (exampleFile "d.proto" none) "d.proto".toList ()
    rfl (by decide) rfl⟩

/-- C5. Output ordering: calling `Generate` on the files of a run in order, where every
file in the to-generate list has a name, ends with the response's file list being the
initial list followed by one output per eligible file and none for the others: there
are as many outputs as eligible files, the i-th output is the entry for the i-th
eligible file (computed in the state reached after the i outputs before it), and the
output names are the names `goFileName` derives for the eligible files, in iteration
order. -/
theorem C5_GenerateAll_output_order (Source : Str → Except Err Str)
    (p : mainPlugin Msg Svc) (files : List (FileDescriptor Msg Svc))
    (hnames : ∀ f ∈ files, f.GetName ∈ p.Generator.Request.FileToGenerate → f.Name ≠ none) :
    ∃ outs,
      GenerateAll Source p files = some (p.appendFiles outs) ∧
      (p.appendFiles outs).Generator.Response.File = p.Generator.Response.File ++ outs ∧
      outs.length = (eligibleFiles p files).length ∧
      outs.map (fun o => o.Name) = (eligibleFiles p files).map (fun f => goFileName p f) ∧
      ∀ i f, (eligibleFiles p files)[i]? = some f →
        ∃ o, outs[i]? = some o ∧
          Generate.output Source (p.appendFiles (outs.take i)) f = some o := by
  obtain ⟨outs, h1, h2, h3⟩ := GenerateAll_spec Source files p hnames
  refine ⟨outs, h1, rfl, ?_, h2, h3⟩
  have hl := congrArg List.length h2
  rw [List.length_map, List.length_map] at hl
  exact hl

theorem C5_GenerateAll_output_order_witness :
    (∀ f ∈ exampleRun,
        f.GetName ∈ (examplePlugin exampleBackend).Generator.Request.FileToGenerate →
          f.Name ≠ none) ∧
      ∃ outs,
        GenerateAll failingSource (examplePlugin exampleBackend) exampleRun =
          some ((examplePlugin exampleBackend).appendFiles outs) ∧
        ((examplePlugin exampleBackend).appendFiles outs).Generator.Response.File =
          (examplePlugin exampleBackend).Generator.Response.File ++ outs ∧
        outs.length = (eligibleFiles (examplePlugin exampleBackend) exampleRun).length ∧
        outs.map (fun o => o.Name) =
          (eligibleFiles (examplePlugin exampleBackend) exampleRun).map
            (fun f => goFileName (examplePlugin exampleBackend) f) ∧
        ∀ i f, (eligibleFiles (examplePlugin exampleBackend) exampleRun)[i]? = some f →
          ∃ o, outs[i]? = some o ∧
            Generate.output failingSource
              ((examplePlugin exampleBackend).appendFiles (outs.take i)) f = some o :=
  ⟨by decide, C5_GenerateAll_output_order failingSource (examplePlugin exampleBackend)
    exampleRun (by decide)⟩

end DriverClaims

/-! ## The output namer: claims -/

section NamerClaims

variable {Msg Svc : Type}

/-- C6. Output naming without override: for every file name and every backend
extension, when the file's `go_package` option is absent or empty, `goFileName` returns
the stripped name followed by the extension, where stripping removes a trailing
`.proto` or `.protodevel` and leaves any other name unchanged; `path.Ext` of the name is
`.proto` (`.protodevel`) exactly when the name ends with that suffix. -/
theorem C6_goFileName_without_override (p : mainPlugin Msg Svc)
    (file : FileDescriptor Msg Svc) (name : Str) (hn : file.Name = some name)
    (ho : GetGoPackage file.GetOptions = []) :
    goFileName p file = some (stripProtoSuffix name ++ p.CodeGenerator.FileNameExt) ∧
      (path.Ext name = dotProto ↔ dotProto <:+ name) ∧
      (path.Ext name = dotProtodevel ↔ dotProtodevel <:+ name) ∧
      (dotProto <:+ name → stripProtoSuffix name ++ dotProto = name) ∧
      (dotProtodevel <:+ name → stripProtoSuffix name ++ dotProtodevel = name) ∧
      (¬ dotProto <:+ name → ¬ dotProtodevel <:+ name → stripProtoSuffix name = name) := by
  refine ⟨goFileName_of_no_impPath p file name [] false hn (goPackageOption_empty file ho),
    Ext_eq_dotProto_iff name, Ext_eq_dotProtodevel_iff name, ?_, ?_, ?_⟩
  · intro h
    have e := (Ext_eq_dotProto_iff name).mpr h
    rw [stripProtoSuffix, if_pos h]
    nth_rewrite 2 [← e]
    rw [← e]
    exact take_append_Ext name
  · intro h
    have e := (Ext_eq_dotProtodevel_iff name).mpr h
    rw [stripProtoSuffix, if_neg (not_dotProto_suffix_of_dotProtodevel name h), if_pos h]
    nth_rewrite 2 [← e]
    rw [← e]
    exact take_append_Ext name
  · intro h1 h2
    rw [stripProtoSuffix, if_neg h1, if_neg h2]

theorem C6_goFileName_without_override_witness :
    (exampleFile "a/b/c.proto" none).Name = some "a/b/c.proto".toList ∧
      GetGoPackage (exampleFile "a/b/c.proto" none).GetOptions = [] ∧
      (goFileName (examplePlugin exampleBackend) (exampleFile "a/b/c.proto" none) =
          some (stripProtoSuffix "a/b/c.proto".toList ++
            (examplePlugin exampleBackend).CodeGenerator.FileNameExt) ∧
        (path.Ext "a/b/c.proto".toList = dotProto ↔ dotProto <:+ "a/b/c.proto".toList) ∧
        (path.Ext "a/b/c.proto".toList = dotProtodevel ↔
          dotProtodevel <:+ "a/b/c.proto".toList) ∧
        (dotProto <:+ "a/b/c.proto".toList →
          stripProtoSuffix "a/b/c.proto".toList ++ dotProto = "a/b/c.proto".toList) ∧
        (dotProtodevel <:+ "a/b/c.proto".toList →
          stripProtoSuffix "a/b/c.proto".toList ++ dotProtodevel = "a/b/c.proto".toList) ∧
        (¬ dotProto <:+ "a/b/c.proto".toList → ¬ dotProtodevel <:+ "a/b/c.proto".toList →
          stripProtoSuffix "a/b/c.proto".toList = "a/b/c.proto".toList)) ∧
      stripProtoSuffix "a/b/c.proto".toList ++
        (examplePlugin exampleBackend).CodeGenerator.FileNameExt = "a/b/c.gen.go".toList :=
  ⟨rfl, rfl, C6_goFileName_without_override (examplePlugin exampleBackend)
    (exampleFile "a/b/c.proto" none) "a/b/c.proto".toList rfl rfl, by decide⟩

/-- C7. Relocation: for every file that has a name and whose `go_package` option yields
a non-empty import path, `goFileName` returns `path.Join` of that import path and the
part after the last slash of the derived name (the stripped name followed by the
backend's extension): the derived name splits as a directory part, empty or ending in a
slash, and a slash-free base, and the result is the import path joined with the base. -/
theorem C7_goFileName_relocation (p : mainPlugin Msg Svc) (file : FileDescriptor Msg Svc)
    (name impPath pkg : Str) (ok : Bool) (hn : file.Name = some name)
    (ho : goPackageOption file = some (impPath, pkg, ok)) (hi : impPath ≠ []) :
    ∃ dir b,
      stripProtoSuffix name ++ p.CodeGenerator.FileNameExt = dir ++ b ∧
      '/' ∉ b ∧ (dir = [] ∨ dir.getLast? = some '/') ∧
      goFileName p file = some (path.Join [impPath, b]) := by
  obtain ⟨dir, b, h1, h2, h3, h4⟩ :=
    Split_spec (stripProtoSuffix name ++ p.CodeGenerator.FileNameExt)
  refine ⟨dir, b, h1, h2, h3, ?_⟩
  rw [goFileName_of_impPath p file name impPath pkg ok hn ho hi, h4]

theorem C7_goFileName_relocation_witness :
    (exampleFile "a/b/c.proto" (some "pkg/v2")).Name = some "a/b/c.proto".toList ∧
      goPackageOption (exampleFile "a/b/c.proto" (some "pkg/v2")) =
        some ("pkg/v2".toList, "v2".toList, true) ∧
      "pkg/v2".toList ≠ [] ∧
      (∃ dir b,
        stripProtoSuffix "a/b/c.proto".toList ++
            (examplePlugin exampleBackend).CodeGenerator.FileNameExt = dir ++ b ∧
          '/' ∉ b ∧ (dir = [] ∨ dir.getLast? = some '/') ∧
          goFileName (examplePlugin exampleBackend)
              (exampleFile "a/b/c.proto" (some "pkg/v2")) =
            some (path.Join ["pkg/v2".toList, b])) ∧
      goFileName.derived (examplePlugin exampleBackend)
          (exampleFile "a/b/c.proto" (some "pkg/v2")) = some "a/b/c.gen.go".toList ∧
      goFileName (examplePlugin exampleBackend) (exampleFile "a/b/c.proto" (some "pkg/v2")) =
        some "pkg/v2/c.gen.go".toList :=
  ⟨rfl, by decide, by decide, C7_goFileName_relocation (examplePlugin exampleBackend)
    (exampleFile "a/b/c.proto" (some "pkg/v2")) "a/b/c.proto".toList "pkg/v2".toList
    "v2".toList true rfl (by decide) (by decide), by decide, by decide⟩

/-- C8. Semicolon form: for every `go_package` string that contains a slash and a
semicolon, `goPackageOption` returns ok = true, the text before the first semicolon
as import path and the text after that semicolon as package name, so that the import
path, a semicolon and the package name put together give back the input. -/
theorem C8_goPackageOption_semicolon_form (file : FileDescriptor Msg Svc)
    (hslash : '/' ∈ GetGoPackage file.GetOptions)
    (hsemi : ';' ∈ GetGoPackage file.GetOptions) :
    ∃ impPath pkg,
      goPackageOption file = some (impPath, pkg, true) ∧
      impPath ++ [';'] ++ pkg = GetGoPackage file.GetOptions ∧
      ';' ∉ impPath := by
  obtain ⟨a, b, hab, ha⟩ := exists_first_split ';' _ hsemi
  refine ⟨a, b, goPackageOption_semicolon file a b hab ha (hab ▸ hslash), ?_, ha⟩
  rw [hab]
  simp

theorem C8_goPackageOption_semicolon_form_witness :
    '/' ∈ GetGoPackage (exampleFile "d.proto" (some "github.com/x/y;mypkg")).GetOptions ∧
      ';' ∈ GetGoPackage (exampleFile "d.proto" (some "github.com/x/y;mypkg")).GetOptions ∧
      (∃ impPath pkg,
        goPackageOption (exampleFile "d.proto" (some "github.com/x/y;mypkg")) =
          some (impPath, pkg, true) ∧
        impPath ++ [';'] ++ pkg =
          GetGoPackage (exampleFile "d.proto" (some "github.com/x/y;mypkg")).GetOptions ∧
        ';' ∉ impPath) ∧
      goPackageOption (exampleFile "d.proto" (some "github.com/x/y;mypkg")) =
        some ("github.com/x/y".toList, "mypkg".toList, true) :=
  ⟨by decide, by decide, C8_goPackageOption_semicolon_form
    (exampleFile "d.proto" (some "github.com/x/y;mypkg")) (by decide) (by decide), by decide⟩

/-- C9. Path-only form: for every `go_package` string that contains a slash and no
semicolon, `goPackageOption` returns ok = true, the whole string as import path, and as
package name the text after the last slash, which contains no slash. -/
theorem C9_goPackageOption_path_form (file : FileDescriptor Msg Svc)
    (hslash : '/' ∈ GetGoPackage file.GetOptions)
    (hsemi : ';' ∉ GetGoPackage file.GetOptions) :
    ∃ before pkg,
      GetGoPackage file.GetOptions = before ++ ['/'] ++ pkg ∧ '/' ∉ pkg ∧
      goPackageOption file = some (GetGoPackage file.GetOptions, pkg, true) := by
  obtain ⟨a, b, hab, hb⟩ := exists_last_split '/' _ hslash
  refine ⟨a, b, by rw [hab]; simp, hb, ?_⟩
  have h := goPackageOption_path file a b hab hb (hab ▸ hsemi)
  rw [h, hab]

theorem C9_goPackageOption_path_form_witness :
    '/' ∈ GetGoPackage (exampleFile "d.proto" (some "github.com/x/y")).GetOptions ∧
      ';' ∉ GetGoPackage (exampleFile "d.proto" (some "github.com/x/y")).GetOptions ∧
      (∃ before pkg,
        GetGoPackage (exampleFile "d.proto" (some "github.com/x/y")).GetOptions =
          before ++ ['/'] ++ pkg ∧ '/' ∉ pkg ∧
        goPackageOption (exampleFile "d.proto" (some "github.com/x/y")) =
          some (GetGoPackage (exampleFile "d.proto" (some "github.com/x/y")).GetOptions,
            pkg, true)) ∧
      goPackageOption (exampleFile "d.proto" (some "github.com/x/y")) =
        some ("github.com/x/y".toList, "y".toList, true) :=
  ⟨by decide, by decide, C9_goPackageOption_path_form
    (exampleFile "d.proto" (some "github.com/x/y")) (by decide) (by decide), by decide⟩

/-- C10, as stated, fails: for the `go_package` string `github.com/x/y` (a slash, no
semicolon) the text before the last slash is `github.com/x` and the text after it is
`y`, yet the import path `goPackageOption` returns is the whole string
`github.com/x/y`, not `github.com/x`. -/
theorem C10_import_path_is_not_text_before_last_slash :
    GetGoPackage (exampleFile "d.proto" (some "github.com/x/y")).GetOptions =
        "github.com/x".toList ++ ['/'] ++ "y".toList ∧
      '/' ∉ "y".toList ∧
      ';' ∉ GetGoPackage (exampleFile "d.proto" (some "github.com/x/y")).GetOptions ∧
      goPackageOption (exampleFile "d.proto" (some "github.com/x/y")) =
        some ("github.com/x/y".toList, "y".toList, true) ∧
      (goPackageOption (exampleFile "d.proto" (some "github.com/x/y"))).map (fun r => r.1) ≠
        some "github.com/x".toList := by
  decide

/-- C10, amended: for every `go_package` string without a semicolon that is the text
`before`, a slash, and a slash-free text `pkg` (so the slash is the last one),
the import path `goPackageOption` returns is the whole string, which is longer than
`before`, and the package name is `pkg`, everything after the last slash. -/
theorem C10_goPackageOption_import_path_is_whole_string (file : FileDescriptor Msg Svc)
    (before pkg : Str) (hs : GetGoPackage file.GetOptions = before ++ ['/'] ++ pkg)
    (hpkg : '/' ∉ pkg) (hsemi : ';' ∉ before ++ ['/'] ++ pkg) :
    goPackageOption file = some (before ++ ['/'] ++ pkg, pkg, true) ∧
      before ++ ['/'] ++ pkg ≠ before := by
  have e : before ++ ['/'] ++ pkg = before ++ '/' :: pkg := by simp
  rw [e] at hs hsemi
  rw [e]
  refine ⟨goPackageOption_path file before pkg hs hpkg hsemi, ?_⟩
  intro h
  have hl := congrArg List.length h
  rw [List.length_append, List.length_cons] at hl
  omega

theorem C10_goPackageOption_import_path_is_whole_string_witness :
    GetGoPackage (exampleFile "d.proto" (some "a.b/c/pkg")).GetOptions =
        "a.b/c".toList ++ ['/'] ++ "pkg".toList ∧
      '/' ∉ "pkg".toList ∧
      ';' ∉ "a.b/c".toList ++ ['/'] ++ "pkg".toList ∧
      goPackageOption (exampleFile "d.proto" (some "a.b/c/pkg")) =
        some ("a.b/c".toList ++ ['/'] ++ "pkg".toList, "pkg".toList, true) ∧
      "a.b/c".toList ++ ['/'] ++ "pkg".toList ≠ "a.b/c".toList :=
  ⟨by decide, by decide, by decide, C10_goPackageOption_import_path_is_whole_string
    (exampleFile "d.proto" (some "a.b/c/pkg")) "a.b/c".toList "pkg".toList (by decide)
    (by decide) (by decide)⟩

end NamerClaims

/-! ## Further lemmas on the output namer -/

section NamerLemmas2

variable {Msg Svc : Type}

theorem LastIndexByteString_range (s : Str) (c : Char) :
    -1 ≤ strings.LastIndexByteString s c ∧ strings.LastIndexByteString s c < (s.length : Int) := by
  by_cases h : c ∈ s
  · obtain ⟨a, b, hab, hb⟩ := exists_last_split c s h
    have hl : s.length = a.length + 1 + b.length := by
      rw [hab]
      simp only [List.length_append, List.length_cons]
      omega
    have e : strings.LastIndexByteString s c = (a.length : Int) := by
      rw [hab]
      exact LastIndexByteString_append a b c hb
    rw [e, hl]
    constructor <;> omega
  · rw [LastIndexByteString_not_mem s c h]
    constructor <;> omega

theorem IndexByte_range (s : Str) (c : Char) :
    -1 ≤ strings.IndexByte s c ∧ strings.IndexByte s c < (s.length : Int) := by
  by_cases h : c ∈ s
  · obtain ⟨a, b, hab, ha⟩ := exists_first_split c s h
    have hl : s.length = a.length + 1 + b.length := by
      rw [hab]
      simp only [List.length_append, List.length_cons]
      omega
    have e : strings.IndexByte s c = (a.length : Int) := by
      rw [hab]
      exact IndexByte_append c a b ha
    rw [e, hl]
    constructor <;> omega
  · rw [IndexByte_not_mem c s h]
    constructor <;> omega

theorem head?_ne_of_not_mem (c : Char) (s : Str) (h : c ∉ s) : s.head? ≠ some c := by
  cases s with
  | nil => simp
  | cons x xs =>
    intro e
    simp only [List.head?_cons, Option.some.injEq] at e
    exact h (by rw [e]; exact List.mem_cons_self _ _)

theorem mem_of_getLast? (c : Char) (s : Str) (h : s.getLast? = some c) : c ∈ s :=
  List.mem_of_getLast?_eq_some h

/-- The import path is non-empty exactly for a `go_package` string that contains a
slash and does not begin with a semicolon; without a semicolon it is the whole string. -/
theorem goPackageOption_impPath (file : FileDescriptor Msg Svc) :
    ∃ impPath pkg ok, goPackageOption file = some (impPath, pkg, ok) ∧
      (impPath ≠ [] ↔
        ('/' ∈ GetGoPackage file.GetOptions ∧
          (GetGoPackage file.GetOptions).head? ≠ some ';')) ∧
      (impPath ≠ [] → ok = true) ∧
      ('/' ∈ GetGoPackage file.GetOptions → ';' ∉ GetGoPackage file.GetOptions →
        impPath = GetGoPackage file.GetOptions) := by
  rcases goPackageOption_cases file with ⟨he, h⟩ | ⟨hs, h⟩ | ⟨a, b, hab, hb, hsc, h⟩ |
    ⟨a, b, hab, ha, hsl, h⟩
  · refine ⟨_, _, _, h, ?_, fun hi => absurd rfl hi, ?_⟩
    · rw [he]
      simp
    · rw [he]
      intro hm
      cases hm
  · refine ⟨_, _, _, h, ?_, fun _ => rfl, fun hm => absurd hm hs⟩
    constructor
    · intro hi
      exact absurd rfl hi
    · intro hm
      exact absurd hm.1 hs
  · refine ⟨_, _, _, h, ?_, fun _ => rfl, fun _ _ => hab.symm⟩
    rw [hab]
    constructor
    · intro _
      exact ⟨by simp, head?_ne_of_not_mem ';' _ hsc⟩
    · intro _
      simp
  · refine ⟨_, _, _, h, ?_, fun _ => rfl, ?_⟩
    · rw [hab]
      cases a with
      | nil => simp
      | cons x xs =>
        have hx : x ≠ ';' := fun e => ha (by rw [e]; exact List.mem_cons_self _ _)
        constructor
        · intro _
          refine ⟨hsl, ?_⟩
          simp only [List.cons_append, List.head?_cons, ne_eq, Option.some.injEq]
          exact hx
        · intro _
          simp
    · intro _ hns
      exact absurd (by rw [hab]; simp) hns

theorem goFileName_withoutGoPackage (p : mainPlugin Msg Svc) (file : FileDescriptor Msg Svc)
    (name : Str) (hn : file.Name = some name) :
    goFileName p (withoutGoPackage file) =
      some (stripProtoSuffix name ++ p.CodeGenerator.FileNameExt) :=
  goFileName_of_no_impPath p (withoutGoPackage file) name [] false hn
    (goPackageOption_empty (withoutGoPackage file) rfl)

end NamerLemmas2

/-! ## The output namer: claims on overrides without relocation -/

section NamerClaims2

variable {Msg Svc : Type}

/-- C11. For every `go_package` string without a slash, `goPackageOption` returns an
empty import path: the result is `("", "", false)` when the string is empty or the
option is absent, and `("", s, true)` when the string `s` is not empty. For every
`go_package` string, with or without a slash, ok is false exactly when the string is
empty. -/
theorem C11_goPackageOption_without_slash (file : FileDescriptor Msg Svc) :
    ('/' ∉ GetGoPackage file.GetOptions →
      (GetGoPackage file.GetOptions = [] → goPackageOption file = some ([], [], false)) ∧
      (GetGoPackage file.GetOptions ≠ [] →
        goPackageOption file = some ([], GetGoPackage file.GetOptions, true))) ∧
    ∃ impPath pkg ok, goPackageOption file = some (impPath, pkg, ok) ∧
      (ok = false ↔ GetGoPackage file.GetOptions = []) := by
  constructor
  · intro hs
    exact ⟨fun he => goPackageOption_empty file he,
      fun hne => goPackageOption_no_slash file _ rfl hne hs⟩
  · by_cases he : GetGoPackage file.GetOptions = []
    · exact ⟨_, _, _, goPackageOption_empty file he, ⟨fun _ => he, fun _ => rfl⟩⟩
    · rcases goPackageOption_cases file with ⟨he1, _⟩ | ⟨_, h⟩ | ⟨a, b, _, _, _, h⟩ |
        ⟨a, b, _, _, _, h⟩
      · exact absurd he1 he
      · exact ⟨_, _, _, h, ⟨fun e => Bool.noConfusion e, fun e => absurd e he⟩⟩
      · exact ⟨_, _, _, h, ⟨fun e => Bool.noConfusion e, fun e => absurd e he⟩⟩
      · exact ⟨_, _, _, h, ⟨fun e => Bool.noConfusion e, fun e => absurd e he⟩⟩

theorem C11_goPackageOption_without_slash_witness :
    goPackageOption (exampleFile "d.proto" (some "nopath")) =
        some ([], "nopath".toList, true) ∧
      goPackageOption (exampleFile "d.proto" (some "")) = some ([], [], false) ∧
      goPackageOption (exampleFile "d.proto" none) = some ([], [], false) ∧
      (('/' ∉ GetGoPackage (exampleFile "d.proto" (some "nopath")).GetOptions →
        (GetGoPackage (exampleFile "d.proto" (some "nopath")).GetOptions = [] →
          goPackageOption (exampleFile "d.proto" (some "nopath")) = some ([], [], false)) ∧
        (GetGoPackage (exampleFile "d.proto" (some "nopath")).GetOptions ≠ [] →
          goPackageOption (exampleFile "d.proto" (some "nopath")) =
            some ([], GetGoPackage (exampleFile "d.proto" (some "nopath")).GetOptions,
              true))) ∧
      ∃ impPath pkg ok,
        goPackageOption (exampleFile "d.proto" (some "nopath")) = some (impPath, pkg, ok) ∧
        (ok = false ↔ GetGoPackage (exampleFile "d.proto" (some "nopath")).GetOptions = [])) :=
  ⟨by decide, by decide, by decide,
    C11_goPackageOption_without_slash (exampleFile "d.proto" (some "nopath"))⟩

/-- C12, as stated, fails: for the file `a/b/c.proto` with the `go_package` override
`foo/`, an import path with a trailing separator, `goFileName` relocates the output to
`foo/c.gen.go`, while the same file with no `go_package` option gives `a/b/c.gen.go`. -/
theorem C12_trailing_separator_is_relocated :
    (GetGoPackage (exampleFile "a/b/c.proto" (some "foo/")).GetOptions).getLast? = some '/' ∧
      goFileName (examplePlugin exampleBackend) (exampleFile "a/b/c.proto" (some "foo/")) =
        some "foo/c.gen.go".toList ∧
      goFileName (examplePlugin exampleBackend)
          (withoutGoPackage (exampleFile "a/b/c.proto" (some "foo/"))) =
        some "a/b/c.gen.go".toList ∧
      goFileName (examplePlugin exampleBackend) (exampleFile "a/b/c.proto" (some "foo/")) ≠
        goFileName (examplePlugin exampleBackend)
          (withoutGoPackage (exampleFile "a/b/c.proto" (some "foo/"))) := by
  decide

/-- C12, amended: for every file that has a name, an empty `go_package` override is
treated as no override: `goFileName` returns the name it returns for the same file
with no `go_package` option, the stripped name followed by the backend's extension. An
override that ends in a slash and does not begin with a semicolon is an override like
any other: `goPackageOption` returns a non-empty import path for it (the whole
override when it holds no semicolon) and `goFileName` returns `path.Join` of
that import path and the base of the derived name. -/
theorem C12_goFileName_empty_and_trailing_separator (p : mainPlugin Msg Svc)
    (file : FileDescriptor Msg Svc) (name : Str) (hn : file.Name = some name) :
    (GetGoPackage file.GetOptions = [] →
      goFileName p file = goFileName p (withoutGoPackage file) ∧
      goFileName p file = some (stripProtoSuffix name ++ p.CodeGenerator.FileNameExt)) ∧
    ((GetGoPackage file.GetOptions).getLast? = some '/' →
      (GetGoPackage file.GetOptions).head? ≠ some ';' →
      ∃ impPath pkg, goPackageOption file = some (impPath, pkg, true) ∧
        impPath ≠ [] ∧
        (';' ∉ GetGoPackage file.GetOptions → impPath = GetGoPackage file.GetOptions) ∧
        goFileName p file = some (path.Join [impPath,
          (path.Split (stripProtoSuffix name ++ p.CodeGenerator.FileNameExt)).2])) := by
  constructor
  · intro he
    have h1 := goFileName_of_no_impPath p file name [] false hn (goPackageOption_empty file he)
    exact ⟨by rw [h1, goFileName_withoutGoPackage p file name hn], h1⟩
  · intro hlast hhead
    have hsl : '/' ∈ GetGoPackage file.GetOptions := mem_of_getLast? '/' _ hlast
    obtain ⟨impPath, pkg, ok, h, hiff, hok, hwhole⟩ := goPackageOption_impPath file
    have hi : impPath ≠ [] := hiff.mpr ⟨hsl, hhead⟩
    have hok1 : ok = true := hok hi
    subst hok1
    exact ⟨impPath, pkg, h, hi, fun hsc => hwhole hsl hsc,
      goFileName_of_impPath p file name impPath pkg true hn h hi⟩

theorem C12_goFileName_empty_and_trailing_separator_witness :
    (exampleFile "a/b/c.proto" (some "foo/")).Name = some "a/b/c.proto".toList ∧
      (GetGoPackage (exampleFile "a/b/c.proto" (some "foo/")).GetOptions).getLast? =
        some '/' ∧
      (GetGoPackage (exampleFile "a/b/c.proto" (some "foo/")).GetOptions).head? ≠ some ';' ∧
      ((GetGoPackage (exampleFile "a/b/c.proto" (some "foo/")).GetOptions = [] →
        goFileName (examplePlugin exampleBackend) (exampleFile "a/b/c.proto" (some "foo/")) =
          goFileName (examplePlugin exampleBackend)
            (withoutGoPackage (exampleFile "a/b/c.proto" (some "foo/"))) ∧
        goFileName (examplePlugin exampleBackend) (exampleFile "a/b/c.proto" (some "foo/")) =
          some (stripProtoSuffix "a/b/c.proto".toList ++
            (examplePlugin exampleBackend).CodeGenerator.FileNameExt)) ∧
      ((GetGoPackage (exampleFile "a/b/c.proto" (some "foo/")).GetOptions).getLast? =
          some '/' →
        (GetGoPackage (exampleFile "a/b/c.proto" (some "foo/")).GetOptions).head? ≠
          some ';' →
        ∃ impPath pkg,
          goPackageOption (exampleFile "a/b/c.proto" (some "foo/")) =
            some (impPath, pkg, true) ∧
          impPath ≠ [] ∧
          (';' ∉ GetGoPackage (exampleFile "a/b/c.proto" (some "foo/")).GetOptions →
            impPath = GetGoPackage (exampleFile "a/b/c.proto" (some "foo/")).GetOptions) ∧
          goFileName (examplePlugin exampleBackend)
              (exampleFile "a/b/c.proto" (some "foo/")) =
            some (path.Join [impPath,
              (path.Split (stripProtoSuffix "a/b/c.proto".toList ++
                (examplePlugin exampleBackend).CodeGenerator.FileNameExt)).2]))) :=
  ⟨rfl, by decide, by decide, C12_goFileName_empty_and_trailing_separator
    (examplePlugin exampleBackend) (exampleFile "a/b/c.proto" (some "foo/"))
    "a/b/c.proto".toList rfl⟩

/-- C13. For every file that has a name and whose `go_package` override is not empty
and contains neither a slash nor a semicolon, `goFileName` does not alter the name: it
returns the name it returns for the same file with no `go_package` option, the
stripped name followed by the backend's extension. -/
theorem C13_goFileName_plain_package_name (p : mainPlugin Msg Svc)
    (file : FileDescriptor Msg Svc) (name : Str) (hn : file.Name = some name)
    (hne : GetGoPackage file.GetOptions ≠ []) (hslash : '/' ∉ GetGoPackage file.GetOptions)
    (hsemi : ';' ∉ GetGoPackage file.GetOptions) :
    goFileName p file = goFileName p (withoutGoPackage file) ∧
      goFileName p file = some (stripProtoSuffix name ++ p.CodeGenerator.FileNameExt) ∧
      goPackageOption file = some ([], GetGoPackage file.GetOptions, true) ∧
      ';' ∉ GetGoPackage file.GetOptions := by
  have h := goPackageOption_no_slash file _ rfl hne hslash
  have h1 := goFileName_of_no_impPath p file name _ true hn h
  exact ⟨by rw [h1, goFileName_withoutGoPackage p file name hn], h1, h, hsemi⟩

theorem C13_goFileName_plain_package_name_witness :
    (exampleFile "a/b/c.proto" (some "nopath")).Name = some "a/b/c.proto".toList ∧
      GetGoPackage (exampleFile "a/b/c.proto" (some "nopath")).GetOptions ≠ [] ∧
      '/' ∉ GetGoPackage (exampleFile "a/b/c.proto" (some "nopath")).GetOptions ∧
      ';' ∉ GetGoPackage (exampleFile "a/b/c.proto" (some "nopath")).GetOptions ∧
      (goFileName (examplePlugin exampleBackend) (exampleFile "a/b/c.proto" (some "nopath")) =
          goFileName (examplePlugin exampleBackend)
            (withoutGoPackage (exampleFile "a/b/c.proto" (some "nopath"))) ∧
        goFileName (examplePlugin exampleBackend)
            (exampleFile "a/b/c.proto" (some "nopath")) =
          some (stripProtoSuffix "a/b/c.proto".toList ++
            (examplePlugin exampleBackend).CodeGenerator.FileNameExt) ∧
        goPackageOption (exampleFile "a/b/c.proto" (some "nopath")) =
          some ([], GetGoPackage (exampleFile "a/b/c.proto" (some "nopath")).GetOptions,
            true) ∧
        ';' ∉ GetGoPackage (exampleFile "a/b/c.proto" (some "nopath")).GetOptions) :=
  ⟨rfl, by decide, by decide, by decide, C13_goFileName_plain_package_name
    (examplePlugin exampleBackend) (exampleFile "a/b/c.proto" (some "nopath"))
    "a/b/c.proto".toList rfl (by decide) (by decide) (by decide)⟩

theorem sliceFrom_isSome (s : Str) (lo : Int) (h : 0 ≤ lo ∧ lo ≤ (s.length : Int)) :
    ∃ t, sliceFrom s lo = some t :=
  ⟨_, by rw [sliceFrom, if_pos h]⟩

theorem sliceTo_isSome (s : Str) (hi : Int) (h : 0 ≤ hi ∧ hi ≤ (s.length : Int)) :
    ∃ t, sliceTo s hi = some t :=
  ⟨_, by rw [sliceTo, if_pos h]⟩

/-- C17. Option parsing and naming never fail: for every `go_package` string
`goPackageOption` returns a result, and each slice it takes is in bounds (`pkg[slash+1:]`
when a slash is found, `impPath[:sc]` and `impPath[sc+1:]` when a semicolon is found);
for every file that has a name and every backend extension, the slice
`name[:len(name)-len(ext)]` is in bounds and `goFileName` returns a string. -/
theorem C17_namer_never_panics (p : mainPlugin Msg Svc) (file : FileDescriptor Msg Svc) :
    (∃ impPath pkg ok, goPackageOption file = some (impPath, pkg, ok)) ∧
    (0 ≤ strings.LastIndex (GetGoPackage file.GetOptions) '/' →
      ∃ t, sliceFrom (GetGoPackage file.GetOptions)
        (strings.LastIndex (GetGoPackage file.GetOptions) '/' + 1) = some t) ∧
    (0 ≤ strings.IndexByte (GetGoPackage file.GetOptions) ';' →
      (∃ t, sliceTo (GetGoPackage file.GetOptions)
        (strings.IndexByte (GetGoPackage file.GetOptions) ';') = some t) ∧
      (∃ t, sliceFrom (GetGoPackage file.GetOptions)
        (strings.IndexByte (GetGoPackage file.GetOptions) ';' + 1) = some t)) ∧
    (∀ name, file.Name = some name →
      (∃ t, sliceTo name ((name.length : Int) - ((path.Ext name).length : Int)) = some t) ∧
      ∃ out, goFileName p file = some out) := by
  refine ⟨goPackageOption_isSome file, ?_, ?_, ?_⟩
  · intro h
    have hr := LastIndexByteString_range (GetGoPackage file.GetOptions) '/'
    rw [strings.LastIndex] at h ⊢
    exact sliceFrom_isSome _ _ (by constructor <;> omega)
  · intro h
    have hr := IndexByte_range (GetGoPackage file.GetOptions) ';'
    exact ⟨sliceTo_isSome _ _ (by constructor <;> omega),
      sliceFrom_isSome _ _ (by constructor <;> omega)⟩
  · intro name hn
    have hl := Ext_length_le name
    exact ⟨sliceTo_isSome _ _ (by constructor <;> omega), goFileName_isSome p file name hn⟩

theorem C17_namer_never_panics_witness :
    goPackageOption (exampleFile "d.proto" (some "foo/")) =
        some ("foo/".toList, [], true) ∧
      goPackageOption (exampleFile "d.proto" (some "foo/x;")) =
        some ("foo/x".toList, [], true) ∧
      goPackageOption (exampleFile "d.proto" (some ";x/y")) =
        some ([], "x/y".toList, true) ∧
      goPackageOption (exampleFile "d.proto" (some "/;/")) =
        some ("/".toList, "/".toList, true) ∧
      goFileName (examplePlugin exampleBackend) (exampleFile ".proto" (some "/;/")) =
        some "/.gen.go".toList ∧
      ((∃ impPath pkg ok,
          goPackageOption (exampleFile ".proto" (some "/;/")) = some (impPath, pkg, ok)) ∧
        (0 ≤ strings.LastIndex (GetGoPackage (exampleFile ".proto" (some "/;/")).GetOptions)
            '/' →
          ∃ t, sliceFrom (GetGoPackage (exampleFile ".proto" (some "/;/")).GetOptions)
            (strings.LastIndex (GetGoPackage (exampleFile ".proto" (some "/;/")).GetOptions)
              '/' + 1) = some t) ∧
        (0 ≤ strings.IndexByte (GetGoPackage (exampleFile ".proto" (some "/;/")).GetOptions)
            ';' →
          (∃ t, sliceTo (GetGoPackage (exampleFile ".proto" (some "/;/")).GetOptions)
            (strings.IndexByte (GetGoPackage (exampleFile ".proto" (some "/;/")).GetOptions)
              ';') = some t) ∧
          (∃ t, sliceFrom (GetGoPackage (exampleFile ".proto" (some "/;/")).GetOptions)
            (strings.IndexByte (GetGoPackage (exampleFile ".proto" (some "/;/")).GetOptions)
              ';' + 1) = some t)) ∧
        (∀ name, (exampleFile ".proto" (some "/;/")).Name = some name →
          (∃ t, sliceTo name ((name.length : Int) - ((path.Ext name).length : Int)) =
            some t) ∧
          ∃ out, goFileName (examplePlugin exampleBackend)
            (exampleFile ".proto" (some "/;/")) = some out)) :=
  ⟨by decide, by decide, by decide, by decide, by decide,
    C17_namer_never_panics (examplePlugin exampleBackend) (exampleFile ".proto" (some "/;/"))⟩

/-- C18. Relocation happens exactly for overrides with a slash that do not begin with a
semicolon: for every `go_package` string, the import path `goPackageOption` returns is
non-empty if and only if the string contains a slash and does not begin with a
semicolon, and that is also exactly when `goFileName`, for a file that has a name,
takes the relocation branch (ok and a non-empty import path) and returns the joined
path instead of the derived name. -/
theorem C18_relocation_iff_slash_and_no_leading_semicolon (p : mainPlugin Msg Svc)
    (file : FileDescriptor Msg Svc) :
    ∃ impPath pkg ok, goPackageOption file = some (impPath, pkg, ok) ∧
      (impPath ≠ [] ↔
        ('/' ∈ GetGoPackage file.GetOptions ∧
          (GetGoPackage file.GetOptions).head? ≠ some ';')) ∧
      ((ok = true ∧ impPath ≠ []) ↔
        ('/' ∈ GetGoPackage file.GetOptions ∧
          (GetGoPackage file.GetOptions).head? ≠ some ';')) ∧
      ∀ name, file.Name = some name →
        (('/' ∈ GetGoPackage file.GetOptions ∧
            (GetGoPackage file.GetOptions).head? ≠ some ';') →
          goFileName p file = some (path.Join [impPath,
            (path.Split (stripProtoSuffix name ++ p.CodeGenerator.FileNameExt)).2])) ∧
        (¬ ('/' ∈ GetGoPackage file.GetOptions ∧
            (GetGoPackage file.GetOptions).head? ≠ some ';') →
          goFileName p file =
            some (stripProtoSuffix name ++ p.CodeGenerator.FileNameExt)) := by
  obtain ⟨impPath, pkg, ok, h, hiff, hok, _⟩ := goPackageOption_impPath file
  refine ⟨impPath, pkg, ok, h, hiff, ?_, ?_⟩
  · constructor
    · intro hc
      exact hiff.mp hc.2
    · intro hc
      exact ⟨hok (hiff.mpr hc), hiff.mpr hc⟩
  · intro name hn
    constructor
    · intro hc
      exact goFileName_of_impPath p file name impPath pkg ok hn h (hiff.mpr hc)
    · intro hc
      have hi : impPath = [] := by
        by_contra hne
        exact hc (hiff.mp hne)
      subst hi
      exact goFileName_of_no_impPath p file name pkg ok hn h

theorem C18_relocation_iff_slash_and_no_leading_semicolon_witness :
    goPackageOption (exampleFile "a/b/c.proto" (some ";x/y")) =
        some ([], "x/y".toList, true) ∧
      goFileName (examplePlugin exampleBackend) (exampleFile "a/b/c.proto" (some ";x/y")) =
        some "a/b/c.gen.go".toList ∧
      goFileName (examplePlugin exampleBackend) (exampleFile "a/b/c.proto" (some "x;y/z")) =
        some "x/c.gen.go".toList ∧
      ∃ impPath pkg ok,
        goPackageOption (exampleFile "a/b/c.proto" (some ";x/y")) =
          some (impPath, pkg, ok) ∧
        (impPath ≠ [] ↔
          ('/' ∈ GetGoPackage (exampleFile "a/b/c.proto" (some ";x/y")).GetOptions ∧
            (GetGoPackage (exampleFile "a/b/c.proto" (some ";x/y")).GetOptions).head? ≠
              some ';')) ∧
        ((ok = true ∧ impPath ≠ []) ↔
          ('/' ∈ GetGoPackage (exampleFile "a/b/c.proto" (some ";x/y")).GetOptions ∧
            (GetGoPackage (exampleFile "a/b/c.proto" (some ";x/y")).GetOptions).head? ≠
              some ';')) ∧
        ∀ name, (exampleFile "a/b/c.proto" (some ";x/y")).Name = some name →
          (('/' ∈ GetGoPackage (exampleFile "a/b/c.proto" (some ";x/y")).GetOptions ∧
              (GetGoPackage (exampleFile "a/b/c.proto" (some ";x/y")).GetOptions).head? ≠
                some ';') →
            goFileName (examplePlugin exampleBackend)
                (exampleFile "a/b/c.proto" (some ";x/y")) =
              some (path.Join [impPath,
                (path.Split (stripProtoSuffix name ++
                  (examplePlugin exampleBackend).CodeGenerator.FileNameExt)).2])) ∧
          (¬ ('/' ∈ GetGoPackage (exampleFile "a/b/c.proto" (some ";x/y")).GetOptions ∧
              (GetGoPackage (exampleFile "a/b/c.proto" (some ";x/y")).GetOptions).head? ≠
                some ';') →
            goFileName (examplePlugin exampleBackend)
                (exampleFile "a/b/c.proto" (some ";x/y")) =
              some (stripProtoSuffix name ++
                (examplePlugin exampleBackend).CodeGenerator.FileNameExt)) :=
  ⟨by decide, by decide, by decide, C18_relocation_iff_slash_and_no_leading_semicolon
    (examplePlugin exampleBackend) (exampleFile "a/b/c.proto" (some ";x/y"))⟩

/-- C19. A semicolon is ignored when there is no slash: for every `go_package` string
`s` that contains a semicolon but no slash, `goPackageOption` returns `("", s, true)`,
the package name being the whole string with its semicolon, and `goFileName`, for a
file that has a name, returns the same name as for the file with no `go_package`
option. -/
theorem C19_semicolon_without_slash_is_ignored (p : mainPlugin Msg Svc)
    (file : FileDescriptor Msg Svc) (name : Str) (hn : file.Name = some name)
    (hsemi : ';' ∈ GetGoPackage file.GetOptions)
    (hslash : '/' ∉ GetGoPackage file.GetOptions) :
    goPackageOption file = some ([], GetGoPackage file.GetOptions, true) ∧
      goFileName p file = goFileName p (withoutGoPackage file) ∧
      goFileName p file = some (stripProtoSuffix name ++ p.CodeGenerator.FileNameExt) := by
  have hne : GetGoPackage file.GetOptions ≠ [] := by
    intro he
    rw [he] at hsemi
    cases hsemi
  have h := goPackageOption_no_slash file _ rfl hne hslash
  have h1 := goFileName_of_no_impPath p file name _ true hn h
  exact ⟨h, by rw [h1, goFileName_withoutGoPackage p file name hn], h1⟩

theorem C19_semicolon_without_slash_is_ignored_witness :
    (exampleFile "a/b/c.proto" (some "mypath;mypkg")).Name = some "a/b/c.proto".toList ∧
      ';' ∈ GetGoPackage (exampleFile "a/b/c.proto" (some "mypath;mypkg")).GetOptions ∧
      '/' ∉ GetGoPackage (exampleFile "a/b/c.proto" (some "mypath;mypkg")).GetOptions ∧
      (goPackageOption (exampleFile "a/b/c.proto" (some "mypath;mypkg")) =
          some ([], GetGoPackage (exampleFile "a/b/c.proto" (some "mypath;mypkg")).GetOptions,
            true) ∧
        goFileName (examplePlugin exampleBackend)
            (exampleFile "a/b/c.proto" (some "mypath;mypkg")) =
          goFileName (examplePlugin exampleBackend)
            (withoutGoPackage (exampleFile "a/b/c.proto" (some "mypath;mypkg"))) ∧
        goFileName (examplePlugin exampleBackend)
            (exampleFile "a/b/c.proto" (some "mypath;mypkg")) =
          some (stripProtoSuffix "a/b/c.proto".toList ++
            (examplePlugin exampleBackend).CodeGenerator.FileNameExt)) ∧
      goPackageOption (exampleFile "a/b/c.proto" (some "mypath;mypkg")) =
        some ([], "mypath;mypkg".toList, true) :=
  ⟨rfl, by decide, by decide, C19_semicolon_without_slash_is_ignored
    (examplePlugin exampleBackend) (exampleFile "a/b/c.proto" (some "mypath;mypkg"))
    "a/b/c.proto".toList rfl (by decide) (by decide), by decide⟩

end NamerClaims2

/-! ## The backend registry: lemmas and claims -/

section RegistryClaims

variable {Msg Svc : Type}

theorem getCodeGenerator_loop_eq_none_iff (n : Str) (l : List (CodeGenerator Msg Svc)) :
    getCodeGenerator.loop n l = none ↔ ∀ g ∈ l, g.Name ≠ n := by
  induction l with
  | nil => simp [getCodeGenerator.loop]
  | cons g gs ih =>
    rw [getCodeGenerator.loop]
    by_cases hg : g.Name = n
    · rw [if_pos hg]
      constructor
      · intro h
        cases h
      · intro h
        exact absurd hg (h g (List.mem_cons_self _ _))
    · rw [if_neg hg, ih]
      constructor
      · intro h x hx
        rcases List.mem_cons.mp hx with h1 | h1
        · rw [h1]
          exact hg
        · exact h x h1
      · intro h x hx
        exact h x (List.mem_cons_of_mem _ hx)

theorem getCodeGenerator_loop_first (n : Str) (pre post : List (CodeGenerator Msg Svc))
    (g : CodeGenerator Msg Svc) (hg : g.Name = n) (hpre : ∀ h ∈ pre, h.Name ≠ n) :
    getCodeGenerator.loop n (pre ++ g :: post) = some g := by
  induction pre with
  | nil => rw [List.nil_append, getCodeGenerator.loop, if_pos hg]
  | cons x xs ih =>
    rw [List.cons_append, getCodeGenerator.loop, if_neg (hpre x (List.mem_cons_self _ _))]
    exact ih (fun h hh => hpre h (List.mem_cons_of_mem _ hh))

theorem getCodeGenerator_loop_some (n : Str) (l : List (CodeGenerator Msg Svc))
    (g : CodeGenerator Msg Svc) (h : getCodeGenerator.loop n l = some g) :
    ∃ pre post, l = pre ++ g :: post ∧ g.Name = n ∧ ∀ x ∈ pre, x.Name ≠ n := by
  induction l with
  | nil =>
    rw [getCodeGenerator.loop] at h
    cases h
  | cons x xs ih =>
    rw [getCodeGenerator.loop] at h
    by_cases hx : x.Name = n
    · rw [if_pos hx] at h
      cases h
      exact ⟨[], xs, rfl, hx, fun y hy => by cases hy⟩
    · rw [if_neg hx] at h
      obtain ⟨pre, post, hl, hg, hpre⟩ := ih h
      refine ⟨x :: pre, post, by rw [hl]; rfl, hg, ?_⟩
      intro y hy
      rcases List.mem_cons.mp hy with h1 | h1
      · rw [h1]
        exact hx
      · exact hpre y h1

theorem getCodeGenerator_loop_append_of_some (n : Str) (l l2 : List (CodeGenerator Msg Svc))
    (b : CodeGenerator Msg Svc) (h : getCodeGenerator.loop n l = some b) :
    getCodeGenerator.loop n (l ++ l2) = some b := by
  obtain ⟨pre, post, hl, hg, hpre⟩ := getCodeGenerator_loop_some n l b h
  rw [hl, List.append_assoc, List.cons_append]
  exact getCodeGenerator_loop_first n pre (post ++ l2) b hg hpre

theorem foldl_RegisterCodeGenerator (gs init : List (CodeGenerator Msg Svc)) :
    gs.foldl RegisterCodeGenerator init = init ++ gs := by
  induction gs generalizing init with
  | nil => simp
  | cons g rest ih =>
    rw [List.foldl_cons, ih, RegisterCodeGenerator]
    simp

theorem registerAll_eq (gs : List (CodeGenerator Msg Svc)) : registerAll gs = gs := by
  rw [registerAll, foldl_RegisterCodeGenerator, List.nil_append]

theorem foldl_names (l : List (CodeGenerator Msg Svc)) (init : List Str) :
    l.foldl (fun names g => names ++ [g.Name]) init = init ++ l.map (fun g => g.Name) := by
  induction l generalizing init with
  | nil => simp
  | cons g rest ih =>
    rw [List.foldl_cons, ih]
    simp

/-- C14. Lookup: for every registry content and every name, `getCodeGenerator` returns
nil exactly when no registered backend has that name, and it returns a backend `g`
exactly when `g` stands in the registry with that name and no backend registered before
it has that name: the earliest-registered match, also when later backends share the
name. -/
theorem C14_getCodeGenerator_first_match (registry : List (CodeGenerator Msg Svc))
    (n : Str) :
    (getCodeGenerator registry n = none ↔ ∀ g ∈ registry, g.Name ≠ n) ∧
    (∀ g, getCodeGenerator registry n = some g →
      ∃ pre post, registry = pre ++ g :: post ∧ g.Name = n ∧ ∀ x ∈ pre, x.Name ≠ n) ∧
    (∀ pre g post, registry = pre ++ g :: post → g.Name = n → (∀ x ∈ pre, x.Name ≠ n) →
      getCodeGenerator registry n = some g) := by
  refine ⟨getCodeGenerator_loop_eq_none_iff n registry,
    fun g h => getCodeGenerator_loop_some n registry g h, ?_⟩
  intro pre g post hl hg hpre
  rw [getCodeGenerator, hl]
  exact getCodeGenerator_loop_first n pre post g hg hpre

theorem C14_getCodeGenerator_first_match_witness :
    (getCodeGenerator [silentBackend, exampleBackend, shadowedBackend] "std".toList).map
        (fun g => g.FileNameExt) = some ".gen.go".toList ∧
      (getCodeGenerator [silentBackend, exampleBackend, shadowedBackend] "none".toList).map
        (fun g => g.FileNameExt) = none ∧
      ((getCodeGenerator [silentBackend, exampleBackend, shadowedBackend] "std".toList = none ↔
          ∀ g ∈ [silentBackend, exampleBackend, shadowedBackend], g.Name ≠ "std".toList) ∧
        (∀ g, getCodeGenerator [silentBackend, exampleBackend, shadowedBackend]
            "std".toList = some g →
          ∃ pre post, [silentBackend, exampleBackend, shadowedBackend] = pre ++ g :: post ∧
            g.Name = "std".toList ∧ ∀ x ∈ pre, x.Name ≠ "std".toList) ∧
        (∀ pre g post, [silentBackend, exampleBackend, shadowedBackend] = pre ++ g :: post →
          g.Name = "std".toList → (∀ x ∈ pre, x.Name ≠ "std".toList) →
          getCodeGenerator [silentBackend, exampleBackend, shadowedBackend] "std".toList =
            some g)) :=
  ⟨by decide, by decide, C14_getCodeGenerator_first_match
    [silentBackend, exampleBackend, shadowedBackend] "std".toList⟩

/-- C15. Registration never changes a successful lookup: for every registry content,
backend `g` and name, a backend that `getCodeGenerator` returned before
`RegisterCodeGenerator(g)` is returned afterwards too; in particular, when the name of
`g` is already taken, lookup of that name after the registration still returns the
backend it returned before, one registered earlier than `g`. -/
theorem C15_RegisterCodeGenerator_keeps_lookup (registry : List (CodeGenerator Msg Svc))
    (g : CodeGenerator Msg Svc) (n : Str) :
    (∀ b, getCodeGenerator registry n = some b →
      getCodeGenerator (RegisterCodeGenerator registry g) n = some b) ∧
    ((∃ h ∈ registry, h.Name = g.Name) →
      ∃ b pre post, registry = pre ++ b :: post ∧
        getCodeGenerator registry g.Name = some b ∧
        getCodeGenerator (RegisterCodeGenerator registry g) g.Name = some b) := by
  constructor
  · intro b hb
    exact getCodeGenerator_loop_append_of_some n registry [g] b hb
  · rintro ⟨h, hmem, hname⟩
    cases hb : getCodeGenerator registry g.Name with
    | none =>
      exact absurd hname ((getCodeGenerator_loop_eq_none_iff g.Name registry).mp hb h hmem)
    | some b =>
      obtain ⟨pre, post, hl, _, _⟩ := getCodeGenerator_loop_some g.Name registry b hb
      exact ⟨b, pre, post, hl, rfl,
        getCodeGenerator_loop_append_of_some g.Name registry [g] b hb⟩

theorem C15_RegisterCodeGenerator_keeps_lookup_witness :
    (getCodeGenerator [silentBackend, exampleBackend] "std".toList).map
        (fun g => g.FileNameExt) = some ".gen.go".toList ∧
      (getCodeGenerator (RegisterCodeGenerator [silentBackend, exampleBackend]
          shadowedBackend) "std".toList).map (fun g => g.FileNameExt) =
        some ".gen.go".toList ∧
      ((∀ b, getCodeGenerator [silentBackend, exampleBackend] "std".toList = some b →
          getCodeGenerator (RegisterCodeGenerator [silentBackend, exampleBackend]
            shadowedBackend) "std".toList = some b) ∧
        ((∃ h ∈ [silentBackend, exampleBackend], h.Name = shadowedBackend.Name) →
          ∃ b pre post, [silentBackend, exampleBackend] = pre ++ b :: post ∧
            getCodeGenerator [silentBackend, exampleBackend] shadowedBackend.Name = some b ∧
            getCodeGenerator (RegisterCodeGenerator [silentBackend, exampleBackend]
              shadowedBackend) shadowedBackend.Name = some b)) :=
  ⟨by decide, by decide, C15_RegisterCodeGenerator_keeps_lookup
    [silentBackend, exampleBackend] shadowedBackend "std".toList⟩

/-- C16. Registration order is preserved by the listing operations: after
`RegisterCodeGenerator` has been called with the backends `gs` in order on an empty
registry, `getAllCodeGenerator` returns `gs`, `getAllServiceGeneratorNames` returns
their names (same length, same order, duplicates kept), and
`getFirstServiceGeneratorName` returns the name of the first backend when there is one
and the empty string when there is none. -/
theorem C16_registration_order_preserved (gs : List (CodeGenerator Msg Svc)) :
    getAllCodeGenerator (registerAll gs) = gs ∧
    getAllServiceGeneratorNames (registerAll gs) = gs.map (fun g => g.Name) ∧
    (getAllServiceGeneratorNames (registerAll gs)).length = gs.length ∧
    (∀ g rest, gs = g :: rest → getFirstServiceGeneratorName (registerAll gs) = g.Name) ∧
    (gs = [] → getFirstServiceGeneratorName (registerAll gs) = []) := by
  have hn : getAllServiceGeneratorNames (registerAll gs) = gs.map (fun g => g.Name) := by
    rw [registerAll_eq, getAllServiceGeneratorNames, foldl_names, List.nil_append]
  refine ⟨by rw [registerAll_eq, getAllCodeGenerator], hn, by rw [hn, List.length_map], ?_, ?_⟩
  · intro g rest hgs
    rw [registerAll_eq, hgs, getFirstServiceGeneratorName]
    simp
  · intro hgs
    rw [registerAll_eq, hgs, getFirstServiceGeneratorName]
    simp

theorem C16_registration_order_preserved_witness :
    getAllServiceGeneratorNames (registerAll [silentBackend, exampleBackend, shadowedBackend]) =
        ["silent".toList, "std".toList, "std".toList] ∧
      getFirstServiceGeneratorName (registerAll [silentBackend, exampleBackend,
        shadowedBackend]) = "silent".toList ∧
      getFirstServiceGeneratorName (registerAll ([] : List (CodeGenerator Str Str))) = [] ∧
      (getAllCodeGenerator (registerAll [silentBackend, exampleBackend, shadowedBackend]) =
          [silentBackend, exampleBackend, shadowedBackend] ∧
        getAllServiceGeneratorNames (registerAll [silentBackend, exampleBackend,
            shadowedBackend]) =
          [silentBackend, exampleBackend, shadowedBackend].map (fun g => g.Name) ∧
        (getAllServiceGeneratorNames (registerAll [silentBackend, exampleBackend,
            shadowedBackend])).length =
          [silentBackend, exampleBackend, shadowedBackend].length ∧
        (∀ g rest, [silentBackend, exampleBackend, shadowedBackend] = g :: rest →
          getFirstServiceGeneratorName (registerAll [silentBackend, exampleBackend,
            shadowedBackend]) = g.Name) ∧
        ([silentBackend, exampleBackend, shadowedBackend] = [] →
          getFirstServiceGeneratorName (registerAll [silentBackend, exampleBackend,
            shadowedBackend]) = [])) :=
  ⟨by decide, by decide, by decide, C16_registration_order_preserved
    [silentBackend, exampleBackend, shadowedBackend]⟩

end RegistryClaims

end Protorpc
